import Mathlib

/-!
# go-hamster/engine: the plugin lifecycle of `App.Run`

A shallow embedding of `app.go`, `ctx.go`, `option.go` and `plugin.go`.

* Plugins are handles of a type `P`; the interface `Plugin` is the table of their
  methods.  `Key` and `Depends` are pure, the four lifecycle methods return
  `none` for a nil error and `some e` for a non-nil one.
* `context.Context` is kept as far as `Value` can observe it.
* `App` carries the two fields of the Go struct and two instrumentation fields:
  `calls`, the lifecycle methods invoked so far with their results, and
  `logged`, the lines handed to the logger.
* The recursion of `registerPlugin` is bounded by a fuel argument; `none` means
  that the fuel ran out.
* The goroutines of `Run` are sequentialised by a schedule: the order in which
  the tasks of the errgroup return.
-/

namespace Engine

/-! ## Errors -/

/-- The two messages that `app.go` attaches with `errors.Wrap` and `errors.Wrapf`. -/
inductive Msg (P : Type) where
  /-- The text "注册依赖插件失败" of `registerPlugin`. -/
  | dependFailed
  /-- The text "插件%s注册失败" of `Run`, formatted with `reflect.TypeOf(p)`. -/
  | pluginFailed (p : P)
  deriving DecidableEq, Repr

/-- A non-nil, non-multi Go `error` as this program builds it. -/
inductive Error (P E : Type) where
  /-- An error value returned by a plugin method. -/
  | plugin (e : E)
  /-- The result of `errors.Wrap(err, msg)` and of `errors.Wrapf`. -/
  | wrap (err : Error P E) (msg : Msg P)
  /-- The result of `errors.WithStack(err)`. -/
  | withStack (err : Error P E)
  deriving DecidableEq, Repr

/-- The plugin error at the bottom of a chain of wrappers (`errors.Cause`). -/
def Error.cause {P E : Type} : Error P E → E
  | .plugin e => e
  | .wrap err _ => err.cause
  | .withStack err => err.cause

/-- The function `errors.WithStack`: nil stays nil. -/
def errorsWithStack {P E : Type} (err : Option (Error P E)) : Option (Error P E) :=
  match err with
  | none => none
  | some e => some (.withStack e)

/-- A non-nil Go `error` that `Run` can return: one error or a `multierr` list. -/
inductive RunError (P E : Type) where
  | single (err : Error P E)
  | multi (errs : List (Error P E))
  deriving DecidableEq, Repr

/-- The errors a returned value holds (`multierr.Errors`). -/
def RunError.errors {P E : Type} : RunError P E → List (Error P E)
  | .single err => [err]
  | .multi errs => errs

/-- The function `multierr.Append`. -/
def multierrAppend {P E : Type} (left right : Option (RunError P E)) : Option (RunError P E) :=
  match left, right with
  | none, r => r
  | l, none => l
  | some (.multi ls), some (.single r) => some (.multi (ls ++ [r]))
  | some (.single l), some (.single r) => some (.multi [l, r])
  | some l, some r => some (.multi (l.errors ++ r.errors))

/-! ## Contexts -/

/-- A `context.Context` as far as `Value` observes it. -/
inductive Context (K P : Type) where
  /-- A context supplied by the caller; `values k = none` is a nil `Value(k)`. -/
  | base (values : K → Option P)
  /-- The wrapper `&Ctx{ctx: inner}` built by `NewCtx`. -/
  | ctx (inner : Context K P)
  /-- The result of `context.WithValue(parent, key, val)` with a non-nil `val`. -/
  | withValue (parent : Context K P) (key : K) (val : P)
  /-- The result of `context.WithTimeout(parent, d)`; it adds no value. -/
  | withTimeout (parent : Context K P)

/-- The method `Value`; `Ctx.Value` delegates to the wrapped context. -/
def Context.Value {K P : Type} [DecidableEq K] : Context K P → K → Option P
  | .base values, k => values k
  | .ctx inner, k => inner.Value k
  | .withValue parent key val, k => if k = key then some val else parent.Value k
  | .withTimeout parent, k => parent.Value k

/-- The function `NewCtx`. -/
def NewCtx {K P : Type} (c : Context K P) : Context K P := .ctx c

/-- The context `context.Background()`. -/
def background {K P : Type} : Context K P := .base (fun _ => none)

/-! ## Plugins, options and the App -/

/-- The interface `Plugin`, as a table of methods over plugin handles. -/
structure Plugin (P K E : Type) where
  Key : P → K
  Register : P → Context K P → Option E
  Start : P → Context K P → Option E
  Stop : P → Context K P → Option E
  Deregister : P → Context K P → Option E
  Depends : P → List P

/-- One invocation of a lifecycle method, with the error it returned. -/
inductive Call (P E : Type) where
  | Register (p : P) (res : Option E)
  | Start (p : P) (res : Option E)
  | Stop (p : P) (res : Option E)
  | Deregister (p : P) (res : Option E)
  deriving DecidableEq, Repr

/-- The plugin a call was made on. -/
def Call.plugin {P E : Type} : Call P E → P
  | .Register p _ => p
  | .Start p _ => p
  | .Stop p _ => p
  | .Deregister p _ => p

/-- The two lines `Run` logs for a listed plugin. -/
inductive LogLine (P : Type) where
  /-- The line "插件注册成功：%s". -/
  | registered (p : P)
  /-- The line "跳过插件注册：%s". -/
  | skipped (p : P)
  deriving DecidableEq, Repr

/-- The struct `appOptions`, without logger, timeout and signals. -/
structure appOptions (P K : Type) where
  ctx : Context K P
  plugins : List P

/-- The struct `App`, with the instrumentation fields `calls` and `logged`. -/
structure App (P K E : Type) where
  opts : appOptions P K
  plugins : List P
  calls : List (Call P E)
  logged : List (LogLine P)

/-- The option `WithCtx`. -/
def WithCtx {P K : Type} (c : Context K P) : appOptions P K → appOptions P K :=
  fun opts => { opts with ctx := c }

/-- The option `WithPlugins`. -/
def WithPlugins {P K : Type} (plugins : List P) : appOptions P K → appOptions P K :=
  fun opts => { opts with plugins := opts.plugins ++ plugins }

/-- The constructor `NewApp`. -/
def NewApp {P K E : Type} (opts : List (appOptions P K → appOptions P K)) : App P K E :=
  { opts := opts.foldl (fun o opt => opt o) { ctx := background, plugins := [] }
    plugins := []
    calls := []
    logged := [] }

/-! ## Registration -/

/-- What `registerPlugin` returns, together with the receiver it mutated. -/
abbrev RegResult (P K E : Type) := App P K E × Context K P × Bool × Option (Error P E)

/-- The loop over `p.Depends()` in `registerPlugin`; `rec` is the recursive call and
`ok` the variable of that name. -/
def registerDepends {P K E : Type}
    (rec : App P K E → Context K P → P → Option (RegResult P K E)) :
    App P K E → Context K P → Bool → List P → Option (RegResult P K E)
  | a, ctx, ok, [] => some (a, ctx, ok, none)
  | a, ctx, _, dependPlugin :: rest =>
    match rec a ctx dependPlugin with
    | none => none
    | some (a1, ctx1, ok1, err1) =>
      if ok1 then
        registerDepends rec { a1 with plugins := a1.plugins ++ [dependPlugin] } ctx1 ok1 rest
      else
        match err1 with
        | some e => some (a1, ctx1, false, some (.wrap e .dependFailed))
        | none => registerDepends rec a1 ctx1 ok1 rest

/-- The method `App.registerPlugin`. -/
def registerPlugin {P K E : Type} [DecidableEq K] (W : Plugin P K E) :
    Nat → App P K E → Context K P → P → Option (RegResult P K E)
  | 0, _, _, _ => none
  | fuel + 1, a, ctx, p =>
    if (ctx.Value (W.Key p)).isSome then
      some (a, ctx, false, none)
    else
      match registerDepends (registerPlugin W fuel) a ctx false (W.Depends p) with
      | none => none
      | some (a1, ctx1, _, some e) => some (a1, ctx1, false, some e)
      | some (a1, ctx1, ok, none) =>
        match W.Register p ctx1 with
        | some e =>
          some ({ a1 with calls := a1.calls ++ [.Register p (some e)] }, ctx1, false,
            some (.plugin e))
        | none =>
          some ({ a1 with plugins := a1.plugins ++ [p],
                          calls := a1.calls ++ [.Register p none] },
            .withValue ctx1 (W.Key p) p, ok, none)

/-- The registration loop of `Run` over `a.opts.plugins`. -/
def registerAll {P K E : Type} [DecidableEq K] (W : Plugin P K E) (fuel : Nat) :
    App P K E → Context K P → List P → Option (App P K E × Context K P × Option (Error P E))
  | a, ctx, [] => some (a, ctx, none)
  | a, ctx, p :: rest =>
    match registerPlugin W fuel a ctx p with
    | none => none
    | some (a1, ctx1, _, some e) => some (a1, ctx1, some (.wrap e (.pluginFailed p)))
    | some (a1, ctx1, true, none) =>
      registerAll W fuel { a1 with logged := a1.logged ++ [.registered p] } ctx1 rest
    | some (a1, ctx1, false, none) =>
      registerAll W fuel { a1 with logged := a1.logged ++ [.skipped p] } ctx1 rest

/-! ## The service phase -/

/-- A goroutine handed to the errgroup by `Run`. -/
inductive Task (P : Type) where
  /-- The goroutine that waits for `srvCtx.Done()` and then calls `p.Stop`. -/
  | stop (p : P)
  /-- The goroutine that calls `p.Start`. -/
  | start (p : P)
  /-- The goroutine that selects on `doneChan`, `ctx.Done()` and the signal channel. -/
  | watch
  deriving DecidableEq, Repr

/-- Whether the goroutine is one that calls `Start`. -/
def Task.isStart {P : Type} : Task P → Bool
  | .start _ => true
  | _ => false

/-- The goroutines of `Run` in the order in which `eg.Go` launches them. -/
def launch {P : Type} : List P → List (Task P)
  | [] => [.watch]
  | p :: rest => .stop p :: .start p :: launch rest

/-- The error a goroutine returns to the errgroup. -/
def Task.result {P K E : Type} (W : Plugin P K E) (ctx : Context K P) :
    Task P → Option (Error P E)
  | .stop p => errorsWithStack ((W.Stop p (.withTimeout ctx)).map .plugin)
  | .start p => errorsWithStack ((W.Start p ctx).map .plugin)
  | .watch => none

/-- The lifecycle call a goroutine makes, if any. -/
def Task.call {P K E : Type} (W : Plugin P K E) (ctx : Context K P) :
    Task P → List (Call P E)
  | .stop p => [.Stop p (W.Stop p (.withTimeout ctx))]
  | .start p => [.Start p (W.Start p ctx)]
  | .watch => []

/-- The method `errgroup.Group.Wait`: the first non-nil error, in the order in which the
goroutines returned. -/
def egWait {P E : Type} : List (Option (Error P E)) → Option (Error P E)
  | [] => none
  | some e :: _ => some e
  | none :: rest => egWait rest

/-! ## Deregistration and `Run` -/

/-- The loop `for i := len(a.plugins) - 1; i >= 0; i--` of `Run`; the argument `n` is
`i + 1`. -/
def deregisterLoop {P K E : Type} (W : Plugin P K E) (ctx : Context K P) (plugins : List P) :
    Nat → List (Call P E) → Option (RunError P E) → List (Call P E) × Option (RunError P E)
  | 0, calls, err => (calls, err)
  | i + 1, calls, err =>
    match plugins.get? i with
    | none => (calls, err)
    | some p =>
      deregisterLoop W ctx plugins i (calls ++ [.Deregister p (W.Deregister p ctx)])
        (multierrAppend err ((W.Deregister p ctx).map (fun e => .single (.plugin e))))

/-- The method `App.Run`.  The schedule `sched` maps the launched goroutines to the order
in which they return. -/
def Run {P K E : Type} [DecidableEq K] (W : Plugin P K E)
    (sched : List (Task P) → List (Task P)) (fuel : Nat) (a : App P K E) :
    Option (App P K E × Option (RunError P E)) :=
  match registerAll W fuel a (NewCtx a.opts.ctx) a.opts.plugins with
  | none => none
  | some (a1, _, some e) => some (a1, some (.single e))
  | some (a1, ctx, none) =>
    let done := sched (launch a1.plugins)
    let a2 := { a1 with calls := a1.calls ++ (done.map (Task.call W ctx)).flatten }
    match errorsWithStack (egWait (done.map (Task.result W ctx))) with
    | some e => some (a2, some (.single e))
    | none =>
      let r := deregisterLoop W ctx a2.plugins a2.plugins.length a2.calls none
      some ({ a2 with calls := r.1 }, r.2)

/-! ## Vocabulary of the statements -/

/-- The context after binding the keys of `new`, one `WithValue` per plugin. -/
def bindAll {P K E : Type} (W : Plugin P K E) (ctx : Context K P) (new : List P) :
    Context K P :=
  new.foldl (fun c q => .withValue c (W.Key q) q) ctx

/-- The `Register` calls of a stretch of registration: successes on `new`, then at most
one failure. -/
def regCalls {P E : Type} (new : List P) (fail : Option (P × E)) : List (Call P E) :=
  new.map (fun q => .Register q none) ++
    match fail with
    | none => []
    | some (q, e) => [.Register q (some e)]

/-- The plugins of a stretch of registration, the failing one last. -/
def regPlugins {P E : Type} (new : List P) (fail : Option (P × E)) : List P :=
  new ++
    match fail with
    | none => []
    | some (q, _) => [q]

/-- Every plugin of the list, when its turn comes, has the keys of its dependencies bound
and its `Register` succeeds. -/
def DepsBound {P K E : Type} [DecidableEq K] (W : Plugin P K E) : Context K P → List P → Prop
  | _, [] => True
  | ctx, q :: rest =>
    ((∀ d ∈ W.Depends q, (ctx.Value (W.Key d)).isSome) ∧ W.Register q ctx = none) ∧
      DepsBound W (.withValue ctx (W.Key q) q) rest

/-- The error `err` after `n` returns through the dependency loop of `registerPlugin`, each
of which wraps it with `errors.Wrap(err, "注册依赖插件失败")`. -/
def wrapDepends {P E : Type} : Nat → Error P E → Error P E
  | 0, err => err
  | n + 1, err => .wrap (wrapDepends n err) .dependFailed

/-- The list `path` leads from `x` to `y` along declared dependencies: each plugin of it is
a dependency of the one before, the first of `x`, and the last is `y`. -/
def DependsPath {P K E : Type} (W : Plugin P K E) : P → List P → P → Prop
  | x, [], y => x = y
  | x, d :: rest, y => d ∈ W.Depends x ∧ DependsPath W d rest y

/-- The dependency graph is acyclic on identity keys: `rank` decreases along every
declared dependency. -/
def Ranked {P K E : Type} (W : Plugin P K E) (rank : K → Nat) : Prop :=
  ∀ p, ∀ d ∈ W.Depends p, rank (W.Key d) < rank (W.Key p)

/-- The plugins reachable from the listed ones along `Depends`. -/
inductive Reachable {P K E : Type} (W : Plugin P K E) (listed : List P) : P → Prop where
  | listed {p : P} : p ∈ listed → Reachable W listed p
  | depends {p d : P} : Reachable W listed p → d ∈ W.Depends p → Reachable W listed d

/-- The error a call returned. -/
def Call.result {P E : Type} : Call P E → Option E
  | .Register _ res => res
  | .Start _ res => res
  | .Stop _ res => res
  | .Deregister _ res => res

/-- The error of a `Start` or `Stop` call. -/
def Call.serviceError {P E : Type} : Call P E → Option E
  | .Start _ res => res
  | .Stop _ res => res
  | _ => none

/-- The plugin of a `Deregister` call. -/
def Call.deregistered {P E : Type} : Call P E → Option P
  | .Deregister p _ => some p
  | _ => none

/-- The error of a `Deregister` call. -/
def Call.deregisterError {P E : Type} : Call P E → Option E
  | .Deregister _ res => res
  | _ => none

/-- The plugin of a `Register` call. -/
def Call.registered {P E : Type} : Call P E → Option P
  | .Register p _ => some p
  | _ => none

/-- The errors held by the value `Run` returns; nil holds none. -/
def errorsOf {P E : Type} : Option (RunError P E) → List (Error P E)
  | none => []
  | some e => e.errors

/-- The `Start` and `Stop` calls of the service phase, in the order of return. -/
def serviceCalls {P K E : Type} (W : Plugin P K E) (ctx : Context K P)
    (done : List (Task P)) : List (Call P E) :=
  (done.map (Task.call W ctx)).flatten

/-- The `Deregister` calls on `plugins`, first to last. -/
def deregisterCalls {P K E : Type} (W : Plugin P K E) (ctx : Context K P)
    (plugins : List P) : List (Call P E) :=
  plugins.map (fun p => .Deregister p (W.Deregister p ctx))

/-- A schedule in which every `Start` returns before the `Stop` calls are made: the
services exit on their own and no signal is sent. -/
def startsFirst {P : Type} (tasks : List (Task P)) : List (Task P) :=
  tasks.filter Task.isStart ++ tasks.filter (fun t => !t.isStart)

/-- A stretch of registration that leads from `(a, ctx)` to `(a1, ctx1)`, registering
`new` and then possibly failing. -/
structure Step {P K E : Type} [DecidableEq K] (W : Plugin P K E) (ctx : Context K P)
    (a a1 : App P K E) (ctx1 : Context K P) (new : List P) (fail : Option (P × E)) :
    Prop where
  opts : a1.opts = a.opts
  plugins : a1.plugins = a.plugins ++ new
  calls : a1.calls = a.calls ++ regCalls new fail
  ctx_eq : ctx1 = bindAll W ctx new
  unbound : ∀ q ∈ regPlugins new fail, ctx.Value (W.Key q) = none
  deps : DepsBound W ctx new
  failed : ∀ q e, fail = some (q, e) → W.Register q ctx1 = some e
  nodup : ∀ rank, Ranked W rank → ((regPlugins new fail).map W.Key).Nodup

/-- The postcondition of `registerPlugin` on `p`, started in `(a, ctx)`. -/
def RegPost {P K E : Type} [DecidableEq K] (W : Plugin P K E) (ctx : Context K P)
    (a : App P K E) (p : P) (r : RegResult P K E) : Prop :=
  r.2.2.1 = false ∧ ∃ new fail, Step W ctx a r.1 r.2.1 new fail ∧
    r.2.2.2.map Error.cause = fail.map Prod.snd ∧
    (fail = none → (r.2.1.Value (W.Key p)).isSome) ∧
    ∀ rank, Ranked W rank → ∀ q ∈ regPlugins new fail, rank (W.Key q) ≤ rank (W.Key p)

/-- The postcondition of the loop over the dependencies `deps`. -/
def DepsPost {P K E : Type} [DecidableEq K] (W : Plugin P K E) (ctx : Context K P)
    (a : App P K E) (deps : List P) (r : RegResult P K E) : Prop :=
  r.2.2.1 = false ∧ ∃ new fail, Step W ctx a r.1 r.2.1 new fail ∧
    r.2.2.2.map Error.cause = fail.map Prod.snd ∧
    (fail = none → ∀ d ∈ deps, (r.2.1.Value (W.Key d)).isSome) ∧
    ∀ rank, Ranked W rank → ∀ q ∈ regPlugins new fail,
      ∃ d ∈ deps, rank (W.Key q) ≤ rank (W.Key d)

/-- What `Run` returns once its registration loop has returned `(a1, ctx1, err1)`. -/
inductive RunTail {P K E : Type} (W : Plugin P K E) (sched : List (Task P) → List (Task P))
    (a1 : App P K E) (ctx1 : Context K P) :
    Option (Error P E) → App P K E × Option (RunError P E) → Prop where
  /-- Registration failed: `Run` returns at once. -/
  | regFailed (e : Error P E) : RunTail W sched a1 ctx1 (some e) (a1, some (.single e))
  /-- A `Start` or `Stop` failed: `Run` returns the first such error. -/
  | serviceFailed (r : App P K E × Option (RunError P E)) (e : E) (rest : List E)
      (first : (serviceCalls W ctx1 (sched (launch a1.plugins))).filterMap Call.serviceError =
        e :: rest)
      (plugins : r.1.plugins = a1.plugins)
      (calls : r.1.calls = a1.calls ++ serviceCalls W ctx1 (sched (launch a1.plugins)))
      (err : r.2 = some (.single (.withStack (.withStack (.plugin e))))) :
      RunTail W sched a1 ctx1 none r
  /-- No `Start` or `Stop` failed: `Run` deregisters. -/
  | finished (r : App P K E × Option (RunError P E))
      (first : (serviceCalls W ctx1 (sched (launch a1.plugins))).filterMap Call.serviceError =
        [])
      (plugins : r.1.plugins = a1.plugins)
      (calls : r.1.calls = a1.calls ++ serviceCalls W ctx1 (sched (launch a1.plugins)) ++
        deregisterCalls W ctx1 a1.plugins.reverse)
      (errs : errorsOf r.2 =
        (a1.plugins.reverse.filterMap (fun p => W.Deregister p ctx1)).map .plugin)
      (nil : r.2 = none ↔ ∀ p ∈ a1.plugins, W.Deregister p ctx1 = none) :
      RunTail W sched a1 ctx1 none r

/-- The error a failing registration returns: the error of the failing `Register`, wrapped
once for each dependency loop it returns through. -/
def ShapePost {P K E : Type} (W : Plugin P K E) (p : P) (r : RegResult P K E) : Prop :=
  ∀ err, r.2.2.2 = some err → ∃ path q e, DependsPath W p path q ∧
    err = wrapDepends path.length (.plugin e) ∧
    r.1.calls.getLast? = some (.Register q (some e))

/-- What a call of `registerPlugin` on `x` leaves of a set `T` of plugins that wait for it:
it returns `false`, binds no key of `T`, fails if `x` is itself in `T`, and when it fails
the key of the plugin whose `Register` failed is unbound in the context it returns. -/
def FreshPost {P K E : Type} [DecidableEq K] (W : Plugin P K E) (T : P → Prop) (x : P)
    (r : RegResult P K E) : Prop :=
  r.2.2.1 = false ∧ (∀ t, T t → r.2.1.Value (W.Key t) = none) ∧ (T x → r.2.2.2 ≠ none) ∧
    ∀ q e, r.2.2.2 ≠ none → r.1.calls.getLast? = some (.Register q (some e)) →
      r.2.1.Value (W.Key q) = none

/-! ## Example declarations -/

/-- Plugins named by numbers, each its own key, every method returning nil. -/
def quiet (depends : Nat → List Nat) : Plugin Nat Nat Nat :=
  { Key := id
    Register := fun _ _ => none
    Start := fun _ _ => none
    Stop := fun _ _ => none
    Deregister := fun _ _ => none
    Depends := depends }

/-- Plugins without dependencies. -/
def leaves : Plugin Nat Nat Nat := quiet (fun _ => [])

/-- Plugin 0 depends on plugin 1. -/
def chain : Plugin Nat Nat Nat := quiet (fun p => if p = 0 then [1] else [])

/-- Plugins 0 and 1 both depend on plugin 2. -/
def shared : Plugin Nat Nat Nat := quiet (fun p => if p = 0 ∨ p = 1 then [2] else [])

/-- Plugin 0 depends on itself. -/
def selfLoop : Plugin Nat Nat Nat := quiet (fun p => if p = 0 then [0] else [])

/-- Plugin 0 depends on plugin 1 and plugin 1 on plugin 0. -/
def twoCycle : Plugin Nat Nat Nat :=
  quiet (fun p => if p = 0 then [1] else if p = 1 then [0] else [])

/-- Plugin 0 depends on plugin 1, plugin 1 on plugin 2 and plugin 2 on plugin 0. -/
def threeCycle : Plugin Nat Nat Nat :=
  quiet (fun p => if p = 0 then [1] else if p = 1 then [2] else if p = 2 then [0] else [])

/-- Plugin 0 depends on the leaf 1 and then on itself. -/
def lateCycle : Plugin Nat Nat Nat := quiet (fun p => if p = 0 then [1, 0] else [])

/-- Plugins without dependencies; `Start` of plugin 0 returns the error 7. -/
def startFails : Plugin Nat Nat Nat :=
  { leaves with Start := fun p _ => if p = 0 then some 7 else none }

/-- As `startFails`, and `Stop` of plugin 1 returns the error 8. -/
def startAndStopFail : Plugin Nat Nat Nat :=
  { startFails with Stop := fun p _ => if p = 1 then some 8 else none }

/-- As `chain`, and `Register` of plugin 1 returns the error 9. -/
def registerFails : Plugin Nat Nat Nat :=
  { chain with Register := fun p _ => if p = 1 then some 9 else none }

/-- A base context that binds the key 0. -/
def boundBase : Context Nat Nat := .base (fun k => if k = 0 then some 5 else none)

/-- A rank for `chain`. -/
def chainRank (k : Nat) : Nat := if k = 0 then 1 else 0

/-- A rank for `shared`. -/
def sharedRank (k : Nat) : Nat := if k = 0 ∨ k = 1 then 1 else 0

/-! ## Contexts only grow -/

theorem bindAll_nil {P K E : Type} (W : Plugin P K E) (ctx : Context K P) : bindAll W ctx [] = ctx := rfl

theorem bindAll_cons {P K E : Type} (W : Plugin P K E) (ctx : Context K P) (q : P) (l : List P) :
    bindAll W ctx (q :: l) = bindAll W (.withValue ctx (W.Key q) q) l := rfl

theorem bindAll_append {P K E : Type} (W : Plugin P K E) (ctx : Context K P) (l1 l2 : List P) :
    bindAll W ctx (l1 ++ l2) = bindAll W (bindAll W ctx l1) l2 := by
  simp [bindAll, List.foldl_append]

theorem Value_bindAll_eq_none {P K E : Type} [DecidableEq K] (W : Plugin P K E) (l : List P) (ctx : Context K P) (k : K) :
    (bindAll W ctx l).Value k = none ↔ ctx.Value k = none ∧ k ∉ l.map W.Key := by
  induction l generalizing ctx with
  | nil => simp [bindAll]
  | cons q l ih =>
    rw [bindAll_cons, ih]
    by_cases h : k = W.Key q
    · simp [Context.Value, h]
    · simp [Context.Value, h]

theorem Value_bindAll_isSome {P K E : Type} [DecidableEq K] (W : Plugin P K E) (l : List P) (ctx : Context K P) (k : K) :
    ((bindAll W ctx l).Value k).isSome ↔ (ctx.Value k).isSome ∨ k ∈ l.map W.Key := by
  have h := Value_bindAll_eq_none W l ctx k
  rw [← not_iff_not] at h
  simp only [← Option.isSome_iff_ne_none, not_and_or, not_not] at h
  simpa [Option.isSome_iff_ne_none] using h

theorem DepsBound_append {P K E : Type} [DecidableEq K] (W : Plugin P K E) (l1 l2 : List P) (ctx : Context K P) :
    DepsBound W ctx (l1 ++ l2) ↔ DepsBound W ctx l1 ∧ DepsBound W (bindAll W ctx l1) l2 := by
  induction l1 generalizing ctx with
  | nil => simp [DepsBound, bindAll]
  | cons q l ih => simp [DepsBound, bindAll_cons, ih, and_assoc]

theorem regPlugins_none {P E : Type} (new : List P) : regPlugins new (none : Option (P × E)) = new := by
  simp [regPlugins]

theorem regCalls_append {P E : Type} (l1 l2 : List P) (fail : Option (P × E)) :
    regCalls (l1 ++ l2) fail = regCalls l1 none ++ regCalls l2 fail := by
  simp [regCalls]

theorem regPlugins_append {P E : Type} (l1 l2 : List P) (fail : Option (P × E)) :
    regPlugins (l1 ++ l2) fail = l1 ++ regPlugins l2 fail := by
  simp [regPlugins]

/-! ## Composition of stretches -/

theorem Step.refl {P K E : Type} [DecidableEq K] (W : Plugin P K E) (ctx : Context K P) (a : App P K E) :
    Step W ctx a a ctx [] none where
  opts := rfl
  plugins := by simp
  calls := by simp [regCalls]
  ctx_eq := rfl
  unbound := by simp [regPlugins]
  deps := trivial
  failed := by simp
  nodup := by simp [regPlugins]

theorem Step.trans {P K E : Type} [DecidableEq K] {W : Plugin P K E} {ctx ctx1 ctx2 : Context K P} {a a1 a2 : App P K E}
    {new1 new2 : List P} {fail : Option (P × E)}
    (h1 : Step W ctx a a1 ctx1 new1 none) (h2 : Step W ctx1 a1 a2 ctx2 new2 fail) :
    Step W ctx a a2 ctx2 (new1 ++ new2) fail := by
  have hun2 : ∀ q ∈ regPlugins new2 fail,
      ctx.Value (W.Key q) = none ∧ W.Key q ∉ new1.map W.Key := by
    intro q hq
    have := h2.unbound q hq
    rwa [h1.ctx_eq, Value_bindAll_eq_none] at this
  refine ⟨h2.opts.trans h1.opts, ?_, ?_, ?_, ?_, ?_, h2.failed, ?_⟩
  · rw [h2.plugins, h1.plugins, List.append_assoc]
  · rw [h2.calls, h1.calls, regCalls_append, List.append_assoc]
  · rw [h2.ctx_eq, h1.ctx_eq, bindAll_append]
  · intro q hq
    rw [regPlugins_append, List.mem_append] at hq
    rcases hq with hq | hq
    · exact h1.unbound q (by rwa [regPlugins_none])
    · exact (hun2 q hq).1
  · rw [DepsBound_append]
    exact ⟨h1.deps, h1.ctx_eq ▸ h2.deps⟩
  · intro rank hr
    rw [regPlugins_append, List.map_append, List.nodup_append]
    refine ⟨?_, h2.nodup rank hr, ?_⟩
    · simpa [regPlugins_none] using h1.nodup rank hr
    · intro k hk1 hk2
      obtain ⟨q, hq, rfl⟩ := List.mem_map.1 hk2
      exact (hun2 q hq).2 hk1

theorem Step.mono {P K E : Type} [DecidableEq K] {W : Plugin P K E} {ctx ctx1 : Context K P}
    {a a1 : App P K E} {new : List P} {fail : Option (P × E)}
    (h : Step W ctx a a1 ctx1 new fail) {k : K} (hk : (ctx.Value k).isSome) :
    (ctx1.Value k).isSome := by
  rw [h.ctx_eq, Value_bindAll_isSome]
  exact Or.inl hk

/-- Appending the successful registration of `p` to a stretch. -/
theorem Step.push {P K E : Type} [DecidableEq K] {W : Plugin P K E} {ctx ctx1 : Context K P}
    {a a1 : App P K E} {new : List P} (h : Step W ctx a a1 ctx1 new none) (p : P)
    (hp : ctx.Value (W.Key p) = none)
    (hd : ∀ d ∈ W.Depends p, (ctx1.Value (W.Key d)).isSome)
    (hreg : W.Register p ctx1 = none)
    (hr : ∀ rank, Ranked W rank → W.Key p ∉ new.map W.Key) :
    Step W ctx a
      { a1 with plugins := a1.plugins ++ [p], calls := a1.calls ++ [.Register p none] }
      (.withValue ctx1 (W.Key p) p) (new ++ [p]) none where
  opts := h.opts
  plugins := by simp [h.plugins]
  calls := by simp [h.calls, regCalls]
  ctx_eq := by rw [bindAll_append, ← h.ctx_eq]; rfl
  unbound := by
    intro q hq
    rw [regPlugins_none, List.mem_append] at hq
    rcases hq with hq | hq
    · exact h.unbound q (by rwa [regPlugins_none])
    · rw [List.mem_singleton.1 hq]; exact hp
  deps := by
    rw [DepsBound_append, ← h.ctx_eq]
    exact ⟨h.deps, ⟨hd, hreg⟩, trivial⟩
  failed := by simp
  nodup := by
    intro rank hrank
    rw [regPlugins_none, List.map_append, List.nodup_append]
    refine ⟨by simpa [regPlugins_none] using h.nodup rank hrank, by simp, ?_⟩
    intro k hk1 hk2
    simp only [List.map_cons, List.map_nil, List.mem_singleton] at hk2
    exact hr rank hrank (hk2 ▸ hk1)

/-- Appending the failed registration of `p` to a stretch. -/
theorem Step.pushFailed {P K E : Type} [DecidableEq K] {W : Plugin P K E}
    {ctx ctx1 : Context K P} {a a1 : App P K E} {new : List P}
    (h : Step W ctx a a1 ctx1 new none) (p : P) (e : E)
    (hp : ctx.Value (W.Key p) = none)
    (hreg : W.Register p ctx1 = some e)
    (hr : ∀ rank, Ranked W rank → W.Key p ∉ new.map W.Key) :
    Step W ctx a { a1 with calls := a1.calls ++ [.Register p (some e)] } ctx1 new
      (some (p, e)) where
  opts := h.opts
  plugins := h.plugins
  calls := by simp [h.calls, regCalls]
  ctx_eq := h.ctx_eq
  unbound := by
    intro q hq
    simp only [regPlugins, List.mem_append, List.mem_singleton] at hq
    rcases hq with hq | hq
    · exact h.unbound q (by rwa [regPlugins_none])
    · rw [hq]; exact hp
  deps := h.deps
  failed := by
    intro q e1 hq
    simp only [Option.some.injEq, Prod.mk.injEq] at hq
    rw [← hq.1, ← hq.2]; exact hreg
  nodup := by
    intro rank hrank
    simp only [regPlugins, List.map_append, List.map_cons, List.map_nil]
    rw [List.nodup_append]
    refine ⟨by simpa [regPlugins_none] using h.nodup rank hrank, by simp, ?_⟩
    intro k hk1 hk2
    simp only [List.mem_singleton] at hk2
    exact hr rank hrank (hk2 ▸ hk1)

/-! ## What a call of `registerPlugin` does -/

theorem registerDepends_post {P K E : Type} [DecidableEq K] (W : Plugin P K E)
    (rec : App P K E → Context K P → P → Option (RegResult P K E))
    (hrec : ∀ a ctx p r, rec a ctx p = some r → RegPost W ctx a p r) :
    ∀ (deps : List P) (a : App P K E) (ctx : Context K P) (r : RegResult P K E),
      registerDepends rec a ctx false deps = some r → DepsPost W ctx a deps r := by
  intro deps
  induction deps with
  | nil =>
    intro a ctx r h
    simp only [registerDepends, Option.some.injEq] at h
    subst h
    exact ⟨rfl, [], none, Step.refl W ctx a, rfl, by simp, by simp [regPlugins]⟩
  | cons d rest ih =>
    intro a ctx r h
    simp only [registerDepends] at h
    cases hc : rec a ctx d with
    | none => simp [hc] at h
    | some r1 =>
      obtain ⟨a1, ctx1, ok1, err1⟩ := r1
      obtain ⟨hok, new1, fail1, hs1, hc1, hb1, hr1⟩ := hrec a ctx d _ hc
      simp only at hok hs1 hc1 hb1
      subst hok
      simp only [hc, Bool.false_eq_true, if_false] at h
      cases err1 with
      | some e =>
        simp only [Option.some.injEq] at h
        subst h
        refine ⟨rfl, new1, fail1, hs1, ?_, ?_, ?_⟩
        · simpa [Error.cause] using hc1
        · intro hf; subst hf; simp at hc1
        · intro rank hrank q hq
          exact ⟨d, List.mem_cons_self _ _, hr1 rank hrank q hq⟩
      | none =>
        have hf1 : fail1 = none := by
          cases fail1 with
          | none => rfl
          | some x => simp at hc1
        subst hf1
        obtain ⟨hok2, new2, fail2, hs2, hc2, hb2, hr2⟩ := ih a1 ctx1 r h
        refine ⟨hok2, new1 ++ new2, fail2, hs1.trans hs2, hc2, ?_, ?_⟩
        · intro hf d1 hd1
          rcases List.mem_cons.1 hd1 with rfl | hd1
          · exact hs2.mono (hb1 rfl)
          · exact hb2 hf d1 hd1
        · intro rank hrank q hq
          rw [regPlugins_append, List.mem_append] at hq
          rcases hq with hq | hq
          · exact ⟨d, List.mem_cons_self _ _, hr1 rank hrank q (by rwa [regPlugins_none])⟩
          · obtain ⟨d1, hd1, hle⟩ := hr2 rank hrank q hq
            exact ⟨d1, List.mem_cons_of_mem _ hd1, hle⟩

theorem registerPlugin_post {P K E : Type} [DecidableEq K] (W : Plugin P K E) :
    ∀ (fuel : Nat) (a : App P K E) (ctx : Context K P) (p : P) (r : RegResult P K E),
      registerPlugin W fuel a ctx p = some r → RegPost W ctx a p r := by
  intro fuel
  induction fuel with
  | zero => intro a ctx p r h; simp [registerPlugin] at h
  | succ fuel ih =>
    intro a ctx p r h
    simp only [registerPlugin] at h
    split at h
    · rename_i hb
      simp only [Option.some.injEq] at h
      subst h
      exact ⟨rfl, [], none, Step.refl W ctx a, rfl, fun _ => hb, by simp [regPlugins]⟩
    · rename_i hb
      have hp : ctx.Value (W.Key p) = none := by simpa using hb
      cases hd : registerDepends (registerPlugin W fuel) a ctx false (W.Depends p) with
      | none => simp [hd] at h
      | some r1 =>
        obtain ⟨a1, ctx1, ok1, err1⟩ := r1
        obtain ⟨hok, new1, fail1, hs1, hc1, hb1, hr1⟩ :=
          registerDepends_post W _ ih _ a ctx _ hd
        simp only at hok hs1 hc1 hb1
        subst hok
        have hlt : ∀ rank, Ranked W rank → ∀ q ∈ regPlugins new1 fail1,
            rank (W.Key q) < rank (W.Key p) := by
          intro rank hrank q hq
          obtain ⟨d, hd1, hle⟩ := hr1 rank hrank q hq
          exact lt_of_le_of_lt hle (hrank p d hd1)
        simp only [hd] at h
        cases err1 with
        | some e =>
          simp only [Option.some.injEq] at h
          subst h
          exact ⟨rfl, new1, fail1, hs1, hc1, by intro hf; subst hf; simp at hc1,
            fun rank hrank q hq => le_of_lt (hlt rank hrank q hq)⟩
        | none =>
          have hf1 : fail1 = none := by
            cases fail1 with
            | none => rfl
            | some x => simp at hc1
          subst hf1
          have hnot : ∀ rank, Ranked W rank → W.Key p ∉ new1.map W.Key := by
            intro rank hrank hmem
            obtain ⟨q, hq, hk⟩ := List.mem_map.1 hmem
            have := hlt rank hrank q (by rwa [regPlugins_none])
            rw [hk] at this
            exact lt_irrefl _ this
          simp only at h
          cases hreg : W.Register p ctx1 with
          | some e =>
            simp only [hreg, Option.some.injEq] at h
            subst h
            refine ⟨rfl, new1, some (p, e), hs1.pushFailed p e hp hreg hnot, rfl, by simp, ?_⟩
            intro rank hrank q hq
            simp only [regPlugins, List.mem_append, List.mem_singleton] at hq
            rcases hq with hq | hq
            · exact le_of_lt (hlt rank hrank q (by rwa [regPlugins_none]))
            · rw [hq]
          | none =>
            simp only [hreg, Option.some.injEq] at h
            subst h
            refine ⟨rfl, new1 ++ [p], none, hs1.push p hp (hb1 rfl) hreg hnot, rfl, ?_, ?_⟩
            · intro _; simp [Context.Value]
            · intro rank hrank q hq
              rw [regPlugins_none, List.mem_append, List.mem_singleton] at hq
              rcases hq with hq | hq
              · exact le_of_lt (hlt rank hrank q (by rwa [regPlugins_none]))
              · rw [hq]

/-! ## Termination on acyclic declarations -/

theorem registerDepends_isSome {P K E : Type}
    (rec : App P K E → Context K P → P → Option (RegResult P K E)) :
    ∀ (deps : List P), (∀ d ∈ deps, ∀ a ctx, (rec a ctx d).isSome) →
      ∀ a ctx ok, (registerDepends rec a ctx ok deps).isSome := by
  intro deps
  induction deps with
  | nil => intro _ a ctx ok; simp [registerDepends]
  | cons d rest ih =>
    intro h a ctx ok
    have hd := h d (List.mem_cons_self _ _) a ctx
    have hrest := ih (fun d1 hd1 => h d1 (List.mem_cons_of_mem _ hd1))
    simp only [registerDepends]
    cases hc : rec a ctx d with
    | none => simp [hc] at hd
    | some r1 =>
      obtain ⟨a1, ctx1, ok1, err1⟩ := r1
      simp only
      split
      · exact hrest _ _ _
      · cases err1 with
        | some e => simp
        | none => exact hrest _ _ _

theorem registerPlugin_isSome {P K E : Type} [DecidableEq K] (W : Plugin P K E)
    (rank : K → Nat) (hr : Ranked W rank) :
    ∀ (fuel : Nat) (a : App P K E) (ctx : Context K P) (p : P),
      rank (W.Key p) < fuel → (registerPlugin W fuel a ctx p).isSome := by
  intro fuel
  induction fuel with
  | zero => intro a ctx p h; exact absurd h (Nat.not_lt_zero _)
  | succ fuel ih =>
    intro a ctx p h
    simp only [registerPlugin]
    split
    · simp
    · have hdeps := registerDepends_isSome (registerPlugin W fuel) (W.Depends p)
        (fun d hd a1 c1 => ih a1 c1 d (lt_of_lt_of_le (hr p d hd) (Nat.le_of_lt_succ h)))
        a ctx false
      cases hd : registerDepends (registerPlugin W fuel) a ctx false (W.Depends p) with
      | none => simp [hd] at hdeps
      | some r1 =>
        obtain ⟨a1, ctx1, ok1, err1⟩ := r1
        cases err1 with
        | some e => simp
        | none =>
          simp only
          cases W.Register p ctx1 <;> simp

theorem registerAll_isSome {P K E : Type} [DecidableEq K] (W : Plugin P K E)
    (rank : K → Nat) (hr : Ranked W rank) (fuel : Nat) :
    ∀ (listed : List P), (∀ p ∈ listed, rank (W.Key p) < fuel) →
      ∀ (a : App P K E) (ctx : Context K P), (registerAll W fuel a ctx listed).isSome := by
  intro listed
  induction listed with
  | nil => intro _ a ctx; simp [registerAll]
  | cons p rest ih =>
    intro h a ctx
    have hp := registerPlugin_isSome W rank hr fuel a ctx p (h p (List.mem_cons_self _ _))
    have hrest := ih (fun q hq => h q (List.mem_cons_of_mem _ hq))
    simp only [registerAll]
    cases hc : registerPlugin W fuel a ctx p with
    | none => simp [hc] at hp
    | some r1 =>
      obtain ⟨a1, ctx1, ok1, err1⟩ := r1
      cases err1 with
      | some e => simp
      | none => cases ok1 <;> exact hrest _ _

/-! ## The registration phase of `Run` -/

theorem Step.relog {P K E : Type} [DecidableEq K] {W : Plugin P K E} {ctx ctx1 : Context K P}
    {a a1 : App P K E} {new : List P} {fail : Option (P × E)}
    (h : Step W ctx a a1 ctx1 new fail) (l : List (LogLine P)) :
    Step W ctx a { a1 with logged := l } ctx1 new fail where
  opts := h.opts
  plugins := h.plugins
  calls := h.calls
  ctx_eq := h.ctx_eq
  unbound := h.unbound
  deps := h.deps
  failed := h.failed
  nodup := h.nodup

theorem registerAll_post {P K E : Type} [DecidableEq K] (W : Plugin P K E) (fuel : Nat) :
    ∀ (listed : List P) (a a1 : App P K E) (ctx ctx1 : Context K P)
      (err : Option (Error P E)),
      registerAll W fuel a ctx listed = some (a1, ctx1, err) →
      ∃ new fail, Step W ctx a a1 ctx1 new fail ∧
        err.map Error.cause = fail.map Prod.snd ∧
        (fail = none → ∀ p ∈ listed, (ctx1.Value (W.Key p)).isSome) := by
  intro listed
  induction listed with
  | nil =>
    intro a a1 ctx ctx1 err h
    simp only [registerAll, Option.some.injEq, Prod.mk.injEq] at h
    obtain ⟨rfl, rfl, rfl⟩ := h
    exact ⟨[], none, Step.refl W ctx a, rfl, by simp⟩
  | cons p rest ih =>
    intro a a1 ctx ctx1 err h
    simp only [registerAll] at h
    cases hc : registerPlugin W fuel a ctx p with
    | none => simp [hc] at h
    | some r1 =>
      obtain ⟨a2, ctx2, ok2, err2⟩ := r1
      obtain ⟨hok, new1, fail1, hs1, hc1, hb1, -⟩ := registerPlugin_post W fuel a ctx p _ hc
      simp only at hok hs1 hc1 hb1
      subst hok
      simp only [hc] at h
      cases err2 with
      | some e =>
        simp only [Option.some.injEq, Prod.mk.injEq] at h
        obtain ⟨rfl, rfl, rfl⟩ := h
        refine ⟨new1, fail1, hs1, by simpa [Error.cause] using hc1, ?_⟩
        intro hf; subst hf; simp at hc1
      | none =>
        have hf1 : fail1 = none := by
          cases fail1 with
          | none => rfl
          | some x => simp at hc1
        subst hf1
        simp only at h
        obtain ⟨new2, fail2, hs2, hc2, hb2⟩ := ih _ a1 ctx2 ctx1 err h
        have hs1l := hs1.relog (a2.logged ++ [LogLine.skipped p])
        refine ⟨new1 ++ new2, fail2, hs1l.trans hs2, hc2, ?_⟩
        intro hf q hq
        rcases List.mem_cons.1 hq with rfl | hq
        · exact hs2.mono (hb1 rfl)
        · exact hb2 hf q hq

/-! ## The service phase and deregistration -/

theorem egWait_eq {P K E : Type} (W : Plugin P K E) (ctx : Context K P) (done : List (Task P)) :
    egWait (done.map (Task.result W ctx)) =
      (((serviceCalls W ctx done).filterMap Call.serviceError).head?).map
        (fun e => Error.withStack (.plugin e)) := by
  induction done with
  | nil => simp [egWait, serviceCalls]
  | cons t rest ih =>
    simp only [serviceCalls] at ih
    cases t with
    | stop p =>
      cases h : W.Stop p (.withTimeout ctx) <;>
        simp [egWait, serviceCalls, Task.result, Task.call, errorsWithStack,
          Call.serviceError, h, ih]
    | start p =>
      cases h : W.Start p ctx <;>
        simp [egWait, serviceCalls, Task.result, Task.call, errorsWithStack,
          Call.serviceError, h, ih]
    | watch => simp [egWait, serviceCalls, Task.result, Task.call, ih]

theorem errorsOf_multierrAppend {P E : Type} (l r : Option (RunError P E)) :
    errorsOf (multierrAppend l r) = errorsOf l ++ errorsOf r := by
  rcases l with _ | l <;> rcases r with _ | r
  · simp [multierrAppend, errorsOf]
  · simp [multierrAppend, errorsOf]
  · simp [multierrAppend, errorsOf]
  · cases l <;> cases r <;> simp [multierrAppend, errorsOf, RunError.errors]

theorem multierrAppend_eq_none {P E : Type} (l r : Option (RunError P E)) :
    multierrAppend l r = none ↔ l = none ∧ r = none := by
  rcases l with _ | l <;> rcases r with _ | r
  · simp [multierrAppend]
  · simp [multierrAppend]
  · simp [multierrAppend]
  · cases l <;> cases r <;> simp [multierrAppend]

theorem deregisterLoop_eq {P K E : Type} (W : Plugin P K E) (ctx : Context K P)
    (plugins : List P) :
    ∀ (n : Nat), n ≤ plugins.length → ∀ (calls : List (Call P E)) (err : Option (RunError P E)),
      (deregisterLoop W ctx plugins n calls err).1 =
          calls ++ deregisterCalls W ctx (plugins.take n).reverse ∧
        errorsOf (deregisterLoop W ctx plugins n calls err).2 =
          errorsOf err ++
            ((plugins.take n).reverse.filterMap (fun p => W.Deregister p ctx)).map .plugin ∧
        ((deregisterLoop W ctx plugins n calls err).2 = none ↔
          err = none ∧ ∀ p ∈ plugins.take n, W.Deregister p ctx = none) := by
  intro n
  induction n with
  | zero => intro _ calls err; simp [deregisterLoop, deregisterCalls]
  | succ n ih =>
    intro hn calls err
    have hlt : n < plugins.length := hn
    have hget : plugins.get? n = some plugins[n] := by
      simp [List.getElem?_eq_getElem hlt]
    have htake : (plugins.take (n + 1)).reverse = plugins[n] :: (plugins.take n).reverse := by
      rw [List.take_succ, List.getElem?_eq_getElem hlt]; simp
    have hmem : ∀ q, q ∈ plugins.take (n + 1) ↔ q = plugins[n] ∨ q ∈ plugins.take n := by
      intro q
      rw [← List.mem_reverse, htake, List.mem_cons, List.mem_reverse]
    obtain ⟨h1, h2, h3⟩ := ih (Nat.le_of_lt hlt)
      (calls ++ [.Deregister plugins[n] (W.Deregister plugins[n] ctx)])
      (multierrAppend err ((W.Deregister plugins[n] ctx).map (fun e => .single (.plugin e))))
    simp only [deregisterLoop, hget]
    refine ⟨?_, ?_, ?_⟩
    · rw [h1, htake]; simp [deregisterCalls]
    · rw [h2, htake, errorsOf_multierrAppend]
      cases hD : W.Deregister plugins[n] ctx <;>
        simp [errorsOf, RunError.errors, hD]
    · rw [h3, multierrAppend_eq_none]
      constructor
      · rintro ⟨⟨he, hD⟩, hall⟩
        refine ⟨he, fun q hq => ?_⟩
        rcases (hmem q).1 hq with rfl | hq
        · cases hD1 : W.Deregister plugins[n] ctx with
          | none => rfl
          | some x => simp [hD1] at hD
        · exact hall q hq
      · rintro ⟨he, hall⟩
        refine ⟨⟨he, ?_⟩, fun q hq => hall q ((hmem q).2 (Or.inr hq))⟩
        simp [hall plugins[n] ((hmem _).2 (Or.inl rfl))]

/-! ## The three ways in which `Run` returns -/

theorem Run_cases {P K E : Type} [DecidableEq K] (W : Plugin P K E)
    (sched : List (Task P) → List (Task P)) (fuel : Nat) (a : App P K E)
    (r : App P K E × Option (RunError P E)) (h : Run W sched fuel a = some r) :
    ∃ a1 ctx1 err1 new fail,
      registerAll W fuel a (NewCtx a.opts.ctx) a.opts.plugins = some (a1, ctx1, err1) ∧
      Step W (NewCtx a.opts.ctx) a a1 ctx1 new fail ∧
      err1.map Error.cause = fail.map Prod.snd ∧
      (fail = none → ∀ p ∈ a.opts.plugins, (ctx1.Value (W.Key p)).isSome) ∧
      RunTail W sched a1 ctx1 err1 r := by
  simp only [Run] at h
  cases hreg : registerAll W fuel a (NewCtx a.opts.ctx) a.opts.plugins with
  | none => simp [hreg] at h
  | some r1 =>
    obtain ⟨a1, ctx1, err1⟩ := r1
    obtain ⟨new, fail, hs, hc, hb⟩ := registerAll_post W fuel _ _ _ _ _ _ hreg
    refine ⟨a1, ctx1, err1, new, fail, rfl, hs, hc, hb, ?_⟩
    simp only [hreg] at h
    cases err1 with
    | some e =>
      simp only [Option.some.injEq] at h
      subst h
      exact .regFailed e
    | none =>
      simp only [egWait_eq] at h
      cases hf : (serviceCalls W ctx1 (sched (launch a1.plugins))).filterMap
          Call.serviceError with
      | nil =>
        simp only [hf, List.head?_nil, Option.map_none', errorsWithStack,
          Option.some.injEq] at h
        subst h
        obtain ⟨h1, h2, h3⟩ := deregisterLoop_eq W ctx1 a1.plugins a1.plugins.length
          (le_refl _) (a1.calls ++ serviceCalls W ctx1 (sched (launch a1.plugins))) none
        rw [List.take_length] at h1 h2 h3
        refine .finished _ hf rfl ?_ ?_ ?_
        · exact h1
        · simpa [errorsOf] using h2
        · simpa using h3
      | cons e rest =>
        simp only [hf, List.head?_cons, Option.map_some', errorsWithStack,
          Option.some.injEq] at h
        subst h
        exact .serviceFailed _ e rest hf rfl rfl rfl

/-! ## Reading the call log -/

theorem regCalls_serviceError {P E : Type} (new : List P) (fail : Option (P × E)) :
    (regCalls new fail).filterMap Call.serviceError = [] := by
  rcases fail with _ | ⟨q, e⟩ <;>
    simp [regCalls, List.filterMap_append, List.filterMap_map, Function.comp_def,
      Call.serviceError]

theorem regCalls_deregistered {P E : Type} (new : List P) (fail : Option (P × E)) :
    (regCalls new fail).filterMap Call.deregistered = [] := by
  rcases fail with _ | ⟨q, e⟩ <;>
    simp [regCalls, List.filterMap_append, List.filterMap_map, Function.comp_def,
      Call.deregistered]

theorem regCalls_deregisterError {P E : Type} (new : List P) (fail : Option (P × E)) :
    (regCalls new fail).filterMap Call.deregisterError = [] := by
  rcases fail with _ | ⟨q, e⟩ <;>
    simp [regCalls, List.filterMap_append, List.filterMap_map, Function.comp_def,
      Call.deregisterError]

theorem regCalls_registered {P E : Type} (new : List P) (fail : Option (P × E)) :
    (regCalls new fail).filterMap Call.registered = regPlugins new fail := by
  rcases fail with _ | ⟨q, e⟩ <;>
    simp [regCalls, regPlugins, List.filterMap_append, List.filterMap_map, Function.comp_def,
      Call.registered]

theorem mem_serviceCalls {P K E : Type} (W : Plugin P K E) (ctx : Context K P)
    (done : List (Task P)) (c : Call P E) (hc : c ∈ serviceCalls W ctx done) :
    (∃ p, Task.start p ∈ done ∧ c = .Start p (W.Start p ctx)) ∨
      (∃ p, Task.stop p ∈ done ∧ c = .Stop p (W.Stop p (.withTimeout ctx))) := by
  simp only [serviceCalls, List.mem_flatten, List.mem_map] at hc
  obtain ⟨l, ⟨t, ht, rfl⟩, hcl⟩ := hc
  cases t with
  | stop p => right; exact ⟨p, ht, by simpa [Task.call] using hcl⟩
  | start p => left; exact ⟨p, ht, by simpa [Task.call] using hcl⟩
  | watch => simp [Task.call] at hcl

theorem serviceCalls_deregistered {P K E : Type} (W : Plugin P K E) (ctx : Context K P)
    (done : List (Task P)) :
    (serviceCalls W ctx done).filterMap Call.deregistered = [] := by
  rw [List.filterMap_eq_nil_iff]
  intro c hc
  rcases mem_serviceCalls W ctx done c hc with ⟨p, -, rfl⟩ | ⟨p, -, rfl⟩ <;> rfl

theorem serviceCalls_deregisterError {P K E : Type} (W : Plugin P K E) (ctx : Context K P)
    (done : List (Task P)) :
    (serviceCalls W ctx done).filterMap Call.deregisterError = [] := by
  rw [List.filterMap_eq_nil_iff]
  intro c hc
  rcases mem_serviceCalls W ctx done c hc with ⟨p, -, rfl⟩ | ⟨p, -, rfl⟩ <;> rfl

theorem serviceCalls_registered {P K E : Type} (W : Plugin P K E) (ctx : Context K P)
    (done : List (Task P)) :
    (serviceCalls W ctx done).filterMap Call.registered = [] := by
  rw [List.filterMap_eq_nil_iff]
  intro c hc
  rcases mem_serviceCalls W ctx done c hc with ⟨p, -, rfl⟩ | ⟨p, -, rfl⟩ <;> rfl

theorem serviceCalls_result {P K E : Type} (W : Plugin P K E) (ctx : Context K P)
    (done : List (Task P)) (c : Call P E) (hc : c ∈ serviceCalls W ctx done) :
    c.result = c.serviceError := by
  rcases mem_serviceCalls W ctx done c hc with ⟨p, -, rfl⟩ | ⟨p, -, rfl⟩ <;> rfl

theorem deregisterCalls_deregistered {P K E : Type} (W : Plugin P K E) (ctx : Context K P)
    (l : List P) : (deregisterCalls W ctx l).filterMap Call.deregistered = l := by
  simp [deregisterCalls, List.filterMap_map, Function.comp_def, Call.deregistered]

theorem deregisterCalls_deregisterError {P K E : Type} (W : Plugin P K E)
    (ctx : Context K P) (l : List P) :
    (deregisterCalls W ctx l).filterMap Call.deregisterError =
      l.filterMap (fun p => W.Deregister p ctx) := by
  simp [deregisterCalls, List.filterMap_map, Function.comp_def, Call.deregisterError]

theorem deregisterCalls_serviceError {P K E : Type} (W : Plugin P K E) (ctx : Context K P)
    (l : List P) : (deregisterCalls W ctx l).filterMap Call.serviceError = [] := by
  simp [deregisterCalls, List.filterMap_map, Function.comp_def, Call.serviceError]

theorem deregisterCalls_registered {P K E : Type} (W : Plugin P K E) (ctx : Context K P)
    (l : List P) : (deregisterCalls W ctx l).filterMap Call.registered = [] := by
  simp [deregisterCalls, List.filterMap_map, Function.comp_def, Call.registered]

theorem Run_of_registered {P K E : Type} [DecidableEq K] (W : Plugin P K E)
    (sched : List (Task P) → List (Task P)) (fuel : Nat) (a a1 : App P K E)
    (ctx1 : Context K P) (err1 : Option (Error P E))
    (hreg : registerAll W fuel a (NewCtx a.opts.ctx) a.opts.plugins = some (a1, ctx1, err1)) :
    ∃ r new fail, Run W sched fuel a = some r ∧
      Step W (NewCtx a.opts.ctx) a a1 ctx1 new fail ∧
      err1.map Error.cause = fail.map Prod.snd ∧
      (fail = none → ∀ p ∈ a.opts.plugins, (ctx1.Value (W.Key p)).isSome) ∧
      RunTail W sched a1 ctx1 err1 r := by
  have hsome : (Run W sched fuel a).isSome := by
    simp only [Run, hreg]
    cases err1 with
    | some e => simp
    | none =>
      simp only
      split <;> simp
  obtain ⟨r, hr⟩ := Option.isSome_iff_exists.1 hsome
  obtain ⟨a2, ctx2, err2, new, fail, h2, hs, hc, hb, ht⟩ := Run_cases W sched fuel a r hr
  rw [hreg] at h2
  simp only [Option.some.injEq, Prod.mk.injEq] at h2
  obtain ⟨rfl, rfl, rfl⟩ := h2
  exact ⟨r, new, fail, hr, hs, hc, hb, ht⟩

theorem registerAll_of_nil {P K E : Type} [DecidableEq K] (W : Plugin P K E) (fuel : Nat)
    (a : App P K E)
    (hreg : (registerAll W fuel a (NewCtx a.opts.ctx) a.opts.plugins).map (fun x => x.2.2) =
      some none) :
    ∃ a1 ctx1, registerAll W fuel a (NewCtx a.opts.ctx) a.opts.plugins =
      some (a1, ctx1, none) := by
  cases h : registerAll W fuel a (NewCtx a.opts.ctx) a.opts.plugins with
  | none => simp [h] at hreg
  | some x =>
    obtain ⟨a1, ctx1, err1⟩ := x
    simp only [h, Option.map_some', Option.some.injEq] at hreg
    subst hreg
    exact ⟨a1, ctx1, rfl⟩

/-! ## Deregistration order (C1) -/

/-- C1, amended: after a successful registration phase `Run` returns, and when no `Start`
or `Stop` returned an error it has called `Deregister` on the plugins of the registration
order in exactly the reverse of that order; when some `Start` or `Stop` returned an error
it has called `Deregister` on no plugin and returns a non-nil error. -/
theorem deregister_reverse_unless_service_error {P K E : Type} [DecidableEq K]
    (W : Plugin P K E) (sched : List (Task P) → List (Task P)) (fuel : Nat)
    (a : App P K E) (hlog : a.calls = [])
    (hreg : (registerAll W fuel a (NewCtx a.opts.ctx) a.opts.plugins).map (fun x => x.2.2) =
      some none) :
    ∃ r, Run W sched fuel a = some r ∧
      (r.1.calls.filterMap Call.serviceError = [] →
        r.1.calls.filterMap Call.deregistered = r.1.plugins.reverse) ∧
      (r.1.calls.filterMap Call.serviceError ≠ [] →
        r.1.calls.filterMap Call.deregistered = [] ∧ r.2 ≠ none) := by
  obtain ⟨a1, ctx1, hreg1⟩ := registerAll_of_nil W fuel a hreg
  obtain ⟨r, new, fail, hr, hs, -, -, ht⟩ := Run_of_registered W sched fuel a a1 ctx1 none hreg1
  refine ⟨r, hr, ?_⟩
  have hcalls := hs.calls
  rw [hlog, List.nil_append] at hcalls
  cases ht with
  | serviceFailed _ e rest first plugins calls err =>
    have hsvc : r.1.calls.filterMap Call.serviceError = e :: rest := by
      rw [calls, hcalls, List.filterMap_append, regCalls_serviceError, first, List.nil_append]
    refine ⟨?_, ?_⟩
    · intro h0; rw [hsvc] at h0; simp at h0
    · intro _
      refine ⟨?_, by simp [err]⟩
      rw [calls, hcalls, List.filterMap_append, regCalls_deregistered,
        serviceCalls_deregistered, List.nil_append]
  | finished _ first plugins calls errs nil =>
    have hsvc : r.1.calls.filterMap Call.serviceError = [] := by
      rw [calls, hcalls, List.filterMap_append, List.filterMap_append, regCalls_serviceError,
        first, deregisterCalls_serviceError]
      rfl
    refine ⟨?_, ?_⟩
    · intro _
      rw [calls, hcalls, List.filterMap_append, List.filterMap_append, regCalls_deregistered,
        serviceCalls_deregistered, deregisterCalls_deregistered, plugins]
      rfl
    · intro h0; exact absurd hsvc h0

/-! ## The error `Run` returns (C3) -/

theorem regCalls_none_result {P E : Type} (new : List P) (c : Call P E)
    (hc : c ∈ regCalls new none) : c.result = none := by
  simp only [regCalls, List.append_nil, List.mem_map] at hc
  obtain ⟨q, -, rfl⟩ := hc
  rfl

/-- C3, amended: after a successful registration phase `Run` returns; when some `Start` or
`Stop` returned a non-nil error the result is the first such error in the order of return,
wrapped, and nothing else; when none did, the result holds exactly the non-nil errors of
the `Deregister` calls; and the result is nil exactly when no call returned an error. -/
theorem run_error_first_service_or_deregister {P K E : Type} [DecidableEq K]
    (W : Plugin P K E) (sched : List (Task P) → List (Task P)) (fuel : Nat)
    (a : App P K E) (hlog : a.calls = [])
    (hreg : (registerAll W fuel a (NewCtx a.opts.ctx) a.opts.plugins).map (fun x => x.2.2) =
      some none) :
    ∃ r, Run W sched fuel a = some r ∧
      (∀ e rest, r.1.calls.filterMap Call.serviceError = e :: rest →
        r.2 = some (.single (.withStack (.withStack (.plugin e))))) ∧
      (r.1.calls.filterMap Call.serviceError = [] →
        errorsOf r.2 = (r.1.calls.filterMap Call.deregisterError).map .plugin) ∧
      (r.2 = none ↔ ∀ c ∈ r.1.calls, c.result = none) := by
  obtain ⟨a1, ctx1, hreg1⟩ := registerAll_of_nil W fuel a hreg
  obtain ⟨r, new, fail, hr, hs, hc, -, ht⟩ := Run_of_registered W sched fuel a a1 ctx1 none hreg1
  refine ⟨r, hr, ?_⟩
  have hfail : fail = none := by
    cases fail with
    | none => rfl
    | some x => simp at hc
  subst hfail
  have hcalls := hs.calls
  rw [hlog, List.nil_append] at hcalls
  cases ht with
  | serviceFailed _ e rest first plugins calls err =>
    have hsvc : r.1.calls.filterMap Call.serviceError = e :: rest := by
      rw [calls, hcalls, List.filterMap_append, regCalls_serviceError, first, List.nil_append]
    refine ⟨?_, ?_, ?_⟩
    · intro e1 rest1 h1
      rw [hsvc] at h1
      simp only [List.cons.injEq] at h1
      rw [err, h1.1]
    · intro h0; rw [hsvc] at h0; simp at h0
    · constructor
      · intro h0; rw [err] at h0; simp at h0
      · intro hall
        have hmem : e ∈ (serviceCalls W ctx1 (sched (launch a1.plugins))).filterMap
            Call.serviceError := by rw [first]; exact List.mem_cons_self _ _
        obtain ⟨c, hc1, hc2⟩ := List.mem_filterMap.1 hmem
        have h1 := hall c (by rw [calls]; exact List.mem_append_right _ hc1)
        rw [serviceCalls_result W ctx1 _ c hc1, hc2] at h1
        simp at h1
  | finished _ first plugins calls errs nil =>
    have hsvc : r.1.calls.filterMap Call.serviceError = [] := by
      rw [calls, hcalls, List.filterMap_append, List.filterMap_append, regCalls_serviceError,
        first, deregisterCalls_serviceError]
      rfl
    refine ⟨?_, ?_, ?_⟩
    · intro e rest h0; rw [hsvc] at h0; simp at h0
    · intro _
      rw [errs, calls, hcalls, List.filterMap_append, List.filterMap_append,
        regCalls_deregisterError, serviceCalls_deregisterError,
        deregisterCalls_deregisterError]
      rfl
    · rw [nil]
      constructor
      · intro hall c hc1
        rw [calls, hcalls, List.mem_append, List.mem_append] at hc1
        rcases hc1 with (hc1 | hc1) | hc1
        · exact regCalls_none_result new c hc1
        · rw [serviceCalls_result W ctx1 _ c hc1]
          exact (List.filterMap_eq_nil_iff.1 first) c hc1
        · simp only [deregisterCalls, List.mem_map, List.mem_reverse] at hc1
          obtain ⟨q, hq, rfl⟩ := hc1
          exact hall q hq
      · intro hall q hq
        refine hall (.Deregister q (W.Deregister q ctx1)) ?_
        rw [calls]
        refine List.mem_append_right _ ?_
        simp only [deregisterCalls, List.mem_map, List.mem_reverse]
        exact ⟨q, hq, rfl⟩

/-! ## A failing `Register` (C5) -/

theorem mem_regCalls {P E : Type} (new : List P) (fail : Option (P × E)) (c : Call P E)
    (hc : c ∈ regCalls new fail) :
    (∃ q ∈ new, c = .Register q none) ∨ (∃ q e, fail = some (q, e) ∧ c = .Register q (some e)) := by
  simp only [regCalls, List.mem_append, List.mem_map] at hc
  rcases hc with ⟨q, hq, rfl⟩ | hc
  · exact Or.inl ⟨q, hq, rfl⟩
  · rcases fail with _ | ⟨q, e⟩
    · simp at hc
    · simp only [List.mem_singleton] at hc
      exact Or.inr ⟨q, e, rfl, hc⟩

theorem mem_regCalls_plugin {P E : Type} (new : List P) (fail : Option (P × E)) (c : Call P E)
    (hc : c ∈ regCalls new fail) : c.plugin ∈ regPlugins new fail := by
  rcases mem_regCalls new fail c hc with ⟨q, hq, rfl⟩ | ⟨q, e, rfl, rfl⟩
  · simp [regPlugins, Call.plugin, hq]
  · simp [regPlugins, Call.plugin]

theorem registerDepends_shape {P K E : Type} (W : Plugin P K E)
    (rec : App P K E → Context K P → P → Option (RegResult P K E))
    (hrec : ∀ a ctx d r, rec a ctx d = some r → ShapePost W d r) :
    ∀ (deps : List P) (a : App P K E) (ctx : Context K P) (ok : Bool)
      (r : RegResult P K E) (err : Error P E),
      registerDepends rec a ctx ok deps = some r → r.2.2.2 = some err →
      ∃ d ∈ deps, ∃ path q e, DependsPath W d path q ∧
        err = wrapDepends (path.length + 1) (.plugin e) ∧
        r.1.calls.getLast? = some (.Register q (some e)) := by
  intro deps
  induction deps with
  | nil =>
    intro a ctx ok r err h herr
    simp only [registerDepends, Option.some.injEq] at h
    subst h
    simp at herr
  | cons d rest ih =>
    intro a ctx ok r err h herr
    simp only [registerDepends] at h
    cases hc : rec a ctx d with
    | none => simp [hc] at h
    | some r1 =>
      obtain ⟨a1, ctx1, ok1, err1⟩ := r1
      have hshape := hrec a ctx d _ hc
      simp only [hc] at h
      have hrest : ∀ (a2 : App P K E), registerDepends rec a2 ctx1 ok1 rest = some r →
          ∃ d1 ∈ d :: rest, ∃ path q e, DependsPath W d1 path q ∧
            err = wrapDepends (path.length + 1) (.plugin e) ∧
            r.1.calls.getLast? = some (.Register q (some e)) := by
        intro a2 h2
        obtain ⟨d1, hd1, hx⟩ := ih a2 ctx1 ok1 r err h2 herr
        exact ⟨d1, List.mem_cons_of_mem _ hd1, hx⟩
      cases ok1 with
      | true => exact hrest _ (by simpa using h)
      | false =>
        cases err1 with
        | none => exact hrest _ (by simpa using h)
        | some e1 =>
          simp only [Bool.false_eq_true, if_false, Option.some.injEq] at h
          subst h
          simp only [Option.some.injEq] at herr
          obtain ⟨path, q, e, hp, he, hl⟩ := hshape e1 rfl
          exact ⟨d, List.mem_cons_self _ _, path, q, e, hp, by rw [← herr, he]; rfl, hl⟩

theorem registerPlugin_shape {P K E : Type} [DecidableEq K] (W : Plugin P K E) :
    ∀ (fuel : Nat) (a : App P K E) (ctx : Context K P) (p : P) (r : RegResult P K E),
      registerPlugin W fuel a ctx p = some r → ShapePost W p r := by
  intro fuel
  induction fuel with
  | zero => intro a ctx p r h; simp [registerPlugin] at h
  | succ fuel ih =>
    intro a ctx p r h err herr
    simp only [registerPlugin] at h
    split at h
    · simp only [Option.some.injEq] at h
      subst h
      simp at herr
    · cases hd : registerDepends (registerPlugin W fuel) a ctx false (W.Depends p) with
      | none => simp [hd] at h
      | some r1 =>
        obtain ⟨a1, ctx1, ok1, err1⟩ := r1
        have hdeps := fun e1 he1 =>
          registerDepends_shape W _ ih (W.Depends p) a ctx false _ e1 hd he1
        simp only [hd] at h
        cases err1 with
        | some e1 =>
          simp only [Option.some.injEq] at h
          subst h
          obtain ⟨d, hdm, path, q, e, hp, he, hl⟩ := hdeps e1 rfl
          simp only [Option.some.injEq] at herr
          exact ⟨d :: path, q, e, ⟨hdm, hp⟩, by rw [← herr, he]; rfl, hl⟩
        | none =>
          simp only at h
          cases hreg : W.Register p ctx1 with
          | some e =>
            simp only [hreg, Option.some.injEq] at h
            subst h
            simp only [Option.some.injEq] at herr
            exact ⟨[], p, e, rfl, by rw [← herr]; rfl, by simp⟩
          | none =>
            simp only [hreg, Option.some.injEq] at h
            subst h
            simp at herr

theorem registerAll_shape {P K E : Type} [DecidableEq K] (W : Plugin P K E) (fuel : Nat) :
    ∀ (listed : List P) (a a1 : App P K E) (ctx ctx1 : Context K P) (err : Error P E),
      registerAll W fuel a ctx listed = some (a1, ctx1, some err) →
      ∃ l ∈ listed, ∃ path q e, DependsPath W l path q ∧
        err = .wrap (wrapDepends path.length (.plugin e)) (.pluginFailed l) ∧
        a1.calls.getLast? = some (.Register q (some e)) := by
  intro listed
  induction listed with
  | nil => intro a a1 ctx ctx1 err h; simp [registerAll] at h
  | cons p rest ih =>
    intro a a1 ctx ctx1 err h
    simp only [registerAll] at h
    cases hc : registerPlugin W fuel a ctx p with
    | none => simp [hc] at h
    | some r1 =>
      obtain ⟨a2, ctx2, ok2, err2⟩ := r1
      have hshape := registerPlugin_shape W fuel a ctx p _ hc
      simp only [hc] at h
      have hrest : ∀ (a3 : App P K E),
          registerAll W fuel a3 ctx2 rest = some (a1, ctx1, some err) →
          ∃ l ∈ p :: rest, ∃ path q e, DependsPath W l path q ∧
            err = .wrap (wrapDepends path.length (.plugin e)) (.pluginFailed l) ∧
            a1.calls.getLast? = some (.Register q (some e)) := by
        intro a3 h3
        obtain ⟨l, hl, hx⟩ := ih a3 a1 ctx2 ctx1 err h3
        exact ⟨l, List.mem_cons_of_mem _ hl, hx⟩
      cases err2 with
      | some e2 =>
        simp only [Option.some.injEq, Prod.mk.injEq] at h
        obtain ⟨rfl, rfl, rfl⟩ := h
        obtain ⟨path, q, e, hp, he, hl⟩ := hshape e2 rfl
        exact ⟨p, List.mem_cons_self _ _, path, q, e, hp, by rw [he], hl⟩
      | none =>
        cases ok2 with
        | true => exact hrest _ h
        | false => exact hrest _ h

theorem registerDepends_fresh {P K E : Type} [DecidableEq K] (W : Plugin P K E)
    (rec : App P K E → Context K P → P → Option (RegResult P K E))
    (hrec : ∀ a ctx d r (T : P → Prop), (∀ t, T t → ∃ y ∈ W.Depends t, T y ∨ y = d) →
      (∀ t, T t → ctx.Value (W.Key t) = none) → rec a ctx d = some r → FreshPost W T d r) :
    ∀ (deps : List P) (a : App P K E) (ctx : Context K P) (r : RegResult P K E)
      (T : P → Prop), (∀ d ∈ deps, ∀ t, T t → ∃ y ∈ W.Depends t, T y ∨ y = d) →
      (∀ t, T t → ctx.Value (W.Key t) = none) →
      registerDepends rec a ctx false deps = some r →
      r.2.2.1 = false ∧ (∀ t, T t → r.2.1.Value (W.Key t) = none) ∧
        ((∃ d ∈ deps, T d) → r.2.2.2 ≠ none) ∧
        ∀ q e, r.2.2.2 ≠ none → r.1.calls.getLast? = some (.Register q (some e)) →
          r.2.1.Value (W.Key q) = none := by
  intro deps
  induction deps with
  | nil =>
    intro a ctx r T _ hctx h
    simp only [registerDepends, Option.some.injEq] at h
    subst h
    exact ⟨rfl, hctx, by simp, by simp⟩
  | cons d rest ih =>
    intro a ctx r T hstack hctx h
    simp only [registerDepends] at h
    cases hc : rec a ctx d with
    | none => simp [hc] at h
    | some r1 =>
      obtain ⟨a1, ctx1, ok1, err1⟩ := r1
      obtain ⟨hok, hctx1, hT, hlast⟩ :=
        hrec a ctx d _ T (hstack d (List.mem_cons_self _ _)) hctx hc
      simp only at hok hctx1 hT hlast
      subst hok
      simp only [hc, Bool.false_eq_true, if_false] at h
      cases err1 with
      | some e1 =>
        simp only [Option.some.injEq] at h
        subst h
        exact ⟨rfl, hctx1, by simp, fun q e _ hl => hlast q e (by simp) hl⟩
      | none =>
        obtain ⟨h1, h2, h3, h4⟩ := ih a1 ctx1 r T
          (fun d1 hd1 => hstack d1 (List.mem_cons_of_mem _ hd1)) hctx1 h
        refine ⟨h1, h2, ?_, h4⟩
        rintro ⟨d1, hd1, hTd⟩
        rcases List.mem_cons.1 hd1 with rfl | hd1
        · exact absurd rfl (hT hTd)
        · exact h3 ⟨d1, hd1, hTd⟩

theorem registerPlugin_fresh {P K E : Type} [DecidableEq K] (W : Plugin P K E)
    (hinj : Function.Injective W.Key) :
    ∀ (fuel : Nat) (a : App P K E) (ctx : Context K P) (x : P) (r : RegResult P K E)
      (T : P → Prop), (∀ t, T t → ∃ y ∈ W.Depends t, T y ∨ y = x) →
      (∀ t, T t → ctx.Value (W.Key t) = none) →
      registerPlugin W fuel a ctx x = some r → FreshPost W T x r := by
  intro fuel
  induction fuel with
  | zero => intro a ctx x r T _ _ h; simp [registerPlugin] at h
  | succ fuel ih =>
    intro a ctx x r T hstack hctx h
    simp only [registerPlugin] at h
    split at h
    · rename_i hb
      simp only [Option.some.injEq] at h
      subst h
      refine ⟨rfl, hctx, ?_, by simp⟩
      intro hTx
      rw [hctx x hTx] at hb
      simp at hb
    · rename_i hb
      have hx : ctx.Value (W.Key x) = none := by simpa using hb
      cases hd : registerDepends (registerPlugin W fuel) a ctx false (W.Depends x) with
      | none => simp [hd] at h
      | some r1 =>
        obtain ⟨a1, ctx1, ok1, err1⟩ := r1
        obtain ⟨hok, hctx1, hT, hlast⟩ := registerDepends_fresh W _ ih (W.Depends x) a ctx _
          (fun t => T t ∨ t = x)
          (by
            intro d hdm t ht
            rcases ht with ht | rfl
            · obtain ⟨y, hy, hyT⟩ := hstack t ht
              exact ⟨y, hy, Or.inl hyT⟩
            · exact ⟨d, hdm, Or.inr rfl⟩)
          (by
            intro t ht
            rcases ht with ht | rfl
            · exact hctx t ht
            · exact hx)
          hd
        simp only at hok hctx1 hT hlast
        subst hok
        simp only [hd] at h
        cases err1 with
        | some e1 =>
          simp only [Option.some.injEq] at h
          subst h
          exact ⟨rfl, fun t ht => hctx1 t (Or.inl ht), by simp,
            fun q e _ hl => hlast q e (by simp) hl⟩
        | none =>
          have hnT : ¬ T x := by
            intro hTx
            obtain ⟨y, hy, hyT⟩ := hstack x hTx
            exact hT ⟨y, hy, hyT⟩ rfl
          simp only at h
          cases hreg : W.Register x ctx1 with
          | some e =>
            simp only [hreg, Option.some.injEq] at h
            subst h
            refine ⟨rfl, fun t ht => hctx1 t (Or.inl ht), by simp, ?_⟩
            intro q e1 _ hl
            simp only [List.getLast?_concat, Option.some.injEq, Call.Register.injEq] at hl
            rw [← hl.1]
            exact hctx1 x (Or.inr rfl)
          | none =>
            simp only [hreg, Option.some.injEq] at h
            subst h
            refine ⟨rfl, ?_, fun hTx => absurd hTx hnT, by simp⟩
            intro t ht
            have hne : W.Key t ≠ W.Key x := fun heq => hnT (hinj heq ▸ ht)
            simpa [Context.Value, hne] using hctx1 t (Or.inl ht)

theorem registerAll_fresh {P K E : Type} [DecidableEq K] (W : Plugin P K E)
    (hinj : Function.Injective W.Key) (fuel : Nat) :
    ∀ (listed : List P) (a a1 : App P K E) (ctx ctx1 : Context K P) (err : Error P E)
      (q : P) (e : E), registerAll W fuel a ctx listed = some (a1, ctx1, some err) →
      a1.calls.getLast? = some (.Register q (some e)) → ctx1.Value (W.Key q) = none := by
  intro listed
  induction listed with
  | nil => intro a a1 ctx ctx1 err q e h; simp [registerAll] at h
  | cons p rest ih =>
    intro a a1 ctx ctx1 err q e h hl
    simp only [registerAll] at h
    cases hc : registerPlugin W fuel a ctx p with
    | none => simp [hc] at h
    | some r1 =>
      obtain ⟨a2, ctx2, ok2, err2⟩ := r1
      obtain ⟨-, -, -, hlast⟩ := registerPlugin_fresh W hinj fuel a ctx p _ (fun _ => False)
        (fun _ ht => ht.elim) (fun _ ht => ht.elim) hc
      simp only [hc] at h
      cases err2 with
      | some e2 =>
        simp only [Option.some.injEq, Prod.mk.injEq] at h
        obtain ⟨rfl, rfl, rfl⟩ := h
        exact hlast q e (by simp) hl
      | none =>
        cases ok2 with
        | true => exact ih _ a1 ctx2 ctx1 err q e h hl
        | false => exact ih _ a1 ctx2 ctx1 err q e h hl

/-- C5: take a fresh App, identity keys unique to their plugin, and a registration loop that
returns (as it does on acyclic declarations for every fuel above the ranks of the listed
plugins).  Then `Run` returns, and when a `Register` call of the run returned the error `e`
on plugin `p`: the error `Run` returns is `e` wrapped once with the dependency message for
each step of a dependency path from a listed plugin `l` to `p` and then once with the
message naming `l`; the log of the run is the successful `Register` calls on `new` followed
by the failing call, so no `Register` follows it and no `Start`, `Stop` or `Deregister` is
made; the registration order is `new` and does not hold `p`; and the context binds the keys
of `new` only, not the key of `p`, being the context in which `Register` failed. -/
theorem register_failure_aborts {P K E : Type} [DecidableEq K] (W : Plugin P K E)
    (sched : List (Task P) → List (Task P)) (fuel : Nat) (a : App P K E)
    (hlog : a.calls = []) (hfresh : a.plugins = []) (hinj : Function.Injective W.Key)
    (hret : (∃ rank, Ranked W rank ∧ ∀ q ∈ a.opts.plugins, rank (W.Key q) < fuel) ∨
      (registerAll W fuel a (NewCtx a.opts.ctx) a.opts.plugins).isSome) :
    ∃ r, Run W sched fuel a = some r ∧
      ∀ p e, Call.Register p (some e) ∈ r.1.calls →
        ∃ new l path ctx1,
          l ∈ a.opts.plugins ∧ DependsPath W l path p ∧
          r.2 = some (.single
            (.wrap (wrapDepends path.length (.plugin e)) (.pluginFailed l))) ∧
          registerAll W fuel a (NewCtx a.opts.ctx) a.opts.plugins =
            some (r.1, ctx1,
              some (.wrap (wrapDepends path.length (.plugin e)) (.pluginFailed l))) ∧
          r.1.calls = regCalls new (some (p, e)) ∧
          r.1.plugins = new ∧ p ∉ r.1.plugins ∧
          ctx1 = bindAll W (NewCtx a.opts.ctx) new ∧ ctx1.Value (W.Key p) = none ∧
          W.Register p ctx1 = some e := by
  have hsome : (registerAll W fuel a (NewCtx a.opts.ctx) a.opts.plugins).isSome := by
    rcases hret with ⟨rank, hrank, hfuel⟩ | h
    · exact registerAll_isSome W rank hrank fuel _ hfuel a _
    · exact h
  obtain ⟨⟨a1, ctx1, err1⟩, hreg⟩ := Option.isSome_iff_exists.1 hsome
  obtain ⟨r, new, fail, hr, hs, hc, -, ht⟩ :=
    Run_of_registered W sched fuel a a1 ctx1 err1 hreg
  refine ⟨r, hr, ?_⟩
  intro p e hfail
  have hcalls := hs.calls
  rw [hlog, List.nil_append] at hcalls
  have hnotreg : ∀ l : List P, Call.Register p (some e) ∉ regCalls l (none : Option (P × E)) := by
    intro l hmem
    have := regCalls_none_result l _ hmem
    simp [Call.result] at this
  have hnotsvc : ∀ done, Call.Register p (some e) ∉ serviceCalls W ctx1 done := by
    intro done hmem
    rcases mem_serviceCalls W ctx1 done _ hmem with ⟨q, -, hq⟩ | ⟨q, -, hq⟩ <;> simp at hq
  cases ht with
  | regFailed err =>
    rcases fail with _ | ⟨q, e1⟩
    · simp at hc
    · rw [hcalls] at hfail
      rcases mem_regCalls new _ _ hfail with ⟨q1, -, hq1⟩ | ⟨q1, e2, hq1, hq2⟩
      · simp at hq1
      · simp only [Option.some.injEq, Prod.mk.injEq] at hq1
        simp only [Call.Register.injEq, Option.some.injEq] at hq2
        obtain ⟨rfl, rfl⟩ := hq1
        obtain ⟨rfl, rfl⟩ := hq2
        have hplugins := hs.plugins
        rw [hfresh, List.nil_append] at hplugins
        have hlast : a1.calls.getLast? = some (.Register p (some e)) := by
          rw [hcalls]; simp [regCalls]
        obtain ⟨l, hl, path, q2, e2, hpath, herr, hlast2⟩ :=
          registerAll_shape W fuel _ a a1 _ ctx1 err hreg
        rw [hlast] at hlast2
        simp only [Option.some.injEq, Call.Register.injEq] at hlast2
        obtain ⟨rfl, rfl⟩ := hlast2
        have hunb := registerAll_fresh W hinj fuel _ a a1 _ ctx1 err p e hreg hlast
        have hk : W.Key p ∉ new.map W.Key := by
          rw [hs.ctx_eq, Value_bindAll_eq_none] at hunb
          exact hunb.2
        refine ⟨new, l, path, ctx1, hl, hpath, by rw [herr], by rw [hreg, herr], hcalls,
          hplugins, ?_, hs.ctx_eq, hunb, hs.failed _ _ rfl⟩
        intro hmem
        exact hk (List.mem_map_of_mem _ (hplugins ▸ hmem))
  | serviceFailed _ e1 rest first plugins calls err =>
    have hf : fail = none := by
      cases fail with
      | none => rfl
      | some x => simp at hc
    subst hf
    rw [calls, hcalls, List.mem_append] at hfail
    rcases hfail with hfail | hfail
    · exact absurd hfail (hnotreg new)
    · exact absurd hfail (hnotsvc _)
  | finished _ first plugins calls errs nil =>
    have hf : fail = none := by
      cases fail with
      | none => rfl
      | some x => simp at hc
    subst hf
    rw [calls, hcalls, List.mem_append, List.mem_append] at hfail
    rcases hfail with (hfail | hfail) | hfail
    · exact absurd hfail (hnotreg new)
    · exact absurd hfail (hnotsvc _)
    · simp [deregisterCalls] at hfail

/-! ## Keys bound by the base context (C10) -/

theorem mem_launch {P : Type} (l : List P) (t : Task P) (ht : t ∈ launch l) :
    t = .watch ∨ (∃ p ∈ l, t = .start p) ∨ (∃ p ∈ l, t = .stop p) := by
  induction l with
  | nil =>
    simp only [launch, List.mem_singleton] at ht
    exact Or.inl ht
  | cons q rest ih =>
    simp only [launch, List.mem_cons] at ht
    rcases ht with rfl | rfl | ht
    · exact Or.inr (Or.inr ⟨q, List.mem_cons_self _ _, rfl⟩)
    · exact Or.inr (Or.inl ⟨q, List.mem_cons_self _ _, rfl⟩)
    · rcases ih ht with h | ⟨p, hp, h⟩ | ⟨p, hp, h⟩
      · exact Or.inl h
      · exact Or.inr (Or.inl ⟨p, List.mem_cons_of_mem _ hp, h⟩)
      · exact Or.inr (Or.inr ⟨p, List.mem_cons_of_mem _ hp, h⟩)

theorem serviceCalls_plugin {P K E : Type} (W : Plugin P K E) (ctx : Context K P)
    (sched : List (Task P) → List (Task P)) (hsched : ∀ l, (sched l).Perm l)
    (plugins : List P) (c : Call P E) (hc : c ∈ serviceCalls W ctx (sched (launch plugins))) :
    c.plugin ∈ plugins := by
  rcases mem_serviceCalls W ctx _ c hc with ⟨p, hp, rfl⟩ | ⟨p, hp, rfl⟩
  · rcases mem_launch plugins _ ((hsched _).mem_iff.1 hp) with h | ⟨q, hq, h⟩ | ⟨q, hq, h⟩
    · simp at h
    · simp only [Task.start.injEq] at h; subst h; exact hq
    · simp at h
  · rcases mem_launch plugins _ ((hsched _).mem_iff.1 hp) with h | ⟨q, hq, h⟩ | ⟨q, hq, h⟩
    · simp at h
    · simp at h
    · simp only [Task.stop.injEq] at h; subst h; exact hq

/-- C10: when the base context passed with `WithCtx` binds the key of `p`, every call of
`registerPlugin` on `p` in a context grown from it returns `(ctx, false, nil)` and leaves
the App as it was, and a `Run` of a fresh App neither admits `p` to the registration order
nor calls `Register`, `Start`, `Stop` or `Deregister` on it. -/
theorem bound_key_skips_plugin {P K E : Type} [DecidableEq K] (W : Plugin P K E)
    (base : Context K P) (p : P) (hbase : (base.Value (W.Key p)).isSome) :
    (∀ (fuel : Nat) (a : App P K E) (new : List P),
      registerPlugin W (fuel + 1) a (bindAll W (NewCtx base) new) p =
        some (a, bindAll W (NewCtx base) new, false, none)) ∧
    (∀ (sched : List (Task P) → List (Task P)), (∀ l, (sched l).Perm l) →
      ∀ (fuel : Nat) (listed : List P) (r : App P K E × Option (RunError P E)),
        Run W sched fuel (NewApp [WithCtx base, WithPlugins listed]) = some r →
        p ∉ r.1.plugins ∧ ∀ c ∈ r.1.calls, c.plugin ≠ p) := by
  constructor
  · intro fuel a new
    have hb : ((bindAll W (NewCtx base) new).Value (W.Key p)).isSome := by
      rw [Value_bindAll_isSome]
      exact Or.inl (by simpa [NewCtx, Context.Value] using hbase)
    simp [registerPlugin, hb]
  · intro sched hsched fuel listed r h
    obtain ⟨a1, ctx1, err1, new, fail, -, hs, hc, -, ht⟩ := Run_cases W sched fuel _ r h
    have hcalls : a1.calls = regCalls new fail := by
      simpa [NewApp] using hs.calls
    have hplugins : a1.plugins = new := by
      simpa [NewApp] using hs.plugins
    have hne : ∀ q ∈ regPlugins new fail, q ≠ p := by
      intro q hq hqp
      have h1 := hs.unbound q hq
      rw [hqp] at h1
      have h2 : base.Value (W.Key p) = none := by
        simpa [NewApp, WithCtx, WithPlugins, NewCtx, Context.Value] using h1
      simp [h2] at hbase
    have hnew : ∀ q ∈ new, q ≠ p := fun q hq => hne q (by simp [regPlugins, hq])
    have hreg : ∀ c ∈ regCalls new fail, c.plugin ≠ p :=
      fun c hc1 => hne _ (mem_regCalls_plugin new fail c hc1)
    cases ht with
    | regFailed err =>
      refine ⟨?_, ?_⟩
      · intro hmem; exact hnew p (hplugins ▸ hmem) rfl
      · intro c hc1; exact hreg c (hcalls ▸ hc1)
    | serviceFailed _ e1 rest first plugins calls err =>
      refine ⟨?_, ?_⟩
      · intro hmem; rw [plugins, hplugins] at hmem; exact hnew p hmem rfl
      · intro c hc1
        rw [calls, hcalls, List.mem_append] at hc1
        rcases hc1 with hc1 | hc1
        · exact hreg c hc1
        · exact hnew _ (hplugins ▸ serviceCalls_plugin W ctx1 sched hsched _ c hc1)
    | finished _ first plugins calls errs nil =>
      refine ⟨?_, ?_⟩
      · intro hmem; rw [plugins, hplugins] at hmem; exact hnew p hmem rfl
      · intro c hc1
        rw [calls, hcalls, List.mem_append, List.mem_append] at hc1
        rcases hc1 with (hc1 | hc1) | hc1
        · exact hreg c hc1
        · exact hnew _ (hplugins ▸ serviceCalls_plugin W ctx1 sched hsched _ c hc1)
        · simp only [deregisterCalls, List.mem_map, List.mem_reverse] at hc1
          obtain ⟨q, hq, rfl⟩ := hc1
          exact hnew q (hplugins ▸ hq)

/-! ## The registration order (C2) -/

theorem RunTail.registration {P K E : Type} {W : Plugin P K E}
    {sched : List (Task P) → List (Task P)} {a1 : App P K E} {ctx1 : Context K P}
    {err1 : Option (Error P E)} {r : App P K E × Option (RunError P E)}
    (ht : RunTail W sched a1 ctx1 err1 r) :
    r.1.plugins = a1.plugins ∧
      r.1.calls.filterMap Call.registered = a1.calls.filterMap Call.registered := by
  cases ht with
  | regFailed err => exact ⟨rfl, rfl⟩
  | serviceFailed _ e1 rest first plugins calls err =>
    refine ⟨plugins, ?_⟩
    rw [calls, List.filterMap_append, serviceCalls_registered, List.append_nil]
  | finished _ first plugins calls errs nil =>
    refine ⟨plugins, ?_⟩
    rw [calls, List.filterMap_append, List.filterMap_append, serviceCalls_registered,
      deregisterCalls_registered, List.append_nil, List.append_nil]

theorem DepsBound.earlier {P K E : Type} [DecidableEq K] {W : Plugin P K E} :
    ∀ (l : List P) (ctx : Context K P), DepsBound W ctx l →
      ∀ (i : Nat) (q : P), l[i]? = some q → ∀ d ∈ W.Depends q,
        (ctx.Value (W.Key d)).isSome ∨
          ∃ (j : Nat) (d1 : P), j < i ∧ l[j]? = some d1 ∧ W.Key d1 = W.Key d := by
  intro l
  induction l with
  | nil => intro ctx _ i q hq; simp at hq
  | cons q0 rest ih =>
    intro ctx h i q hq d hd
    obtain ⟨⟨h0, -⟩, hrest⟩ := h
    cases i with
    | zero =>
      simp only [List.getElem?_cons_zero, Option.some.injEq] at hq
      subst hq
      exact Or.inl (h0 d hd)
    | succ i =>
      simp only [List.getElem?_cons_succ] at hq
      rcases ih _ hrest i q hq d hd with hb | ⟨j, d1, hj, hd1, hk⟩
      · by_cases hk : W.Key d = W.Key q0
        · exact Or.inr ⟨0, q0, Nat.succ_pos _, by simp, hk.symm⟩
        · left; simpa [Context.Value, hk] using hb
      · exact Or.inr ⟨j + 1, d1, Nat.succ_lt_succ hj, by simpa using hd1, hk⟩

/-- The registration loop on the one listed plugin `A` whose one dependency `B` is a leaf. -/
theorem registerAll_chain {P K E : Type} [DecidableEq K] (W : Plugin P K E) (n : Nat)
    (a : App P K E) (ctx : Context K P) (A B : P)
    (hA : W.Depends A = [B]) (hB : W.Depends B = [])
    (hreg : ∀ q c, W.Register q c = none)
    (hctx : ∀ q, ctx.Value (W.Key q) = none) :
    ∃ a1 ctx1, registerAll W (n + 2) a ctx [A] = some (a1, ctx1, none) ∧
      a1.plugins = a.plugins ++ [B, A] := by
  simp [registerAll, registerPlugin, registerDepends, hA, hB, hreg, hctx]

/-- C2: for declarations that are acyclic, with identity keys unique to their plugin, every
`Register` succeeding and a base context that binds no plugin key, `Run` on a fresh App
returns for every fuel above the ranks of the listed plugins, and its registration order
holds no key twice, holds the key of every reachable plugin exactly once, and holds the key
of each dependency of each of its plugins at a strictly smaller index; registering `[A]`
with `A` depending on the leaf `B` yields `[B, A]`. -/
theorem registration_order_topological {P K E : Type} [DecidableEq K] (W : Plugin P K E)
    (rank : K → Nat) (hrank : Ranked W rank) (hinj : Function.Injective W.Key)
    (hreg : ∀ q c, W.Register q c = none)
    (base : Context K P) (hbase : ∀ q, base.Value (W.Key q) = none)
    (sched : List (Task P) → List (Task P)) (listed : List P) (fuel : Nat)
    (hfuel : ∀ q ∈ listed, rank (W.Key q) < fuel) :
    ∃ r, Run W sched fuel (NewApp [WithCtx base, WithPlugins listed]) = some r ∧
      (r.1.plugins.map W.Key).Nodup ∧
      (∀ q, Reachable W listed q → (r.1.plugins.map W.Key).count (W.Key q) = 1) ∧
      (∀ (i : Nat) (q : P), r.1.plugins[i]? = some q → ∀ d ∈ W.Depends q,
        ∃ (j : Nat) (d1 : P), j < i ∧ r.1.plugins[j]? = some d1 ∧ W.Key d1 = W.Key d) ∧
      (∀ A B, listed = [A] → W.Depends A = [B] → W.Depends B = [] →
        r.1.plugins = [B, A]) := by
  have hctx0 : ∀ q, (NewCtx base).Value (W.Key q) = none := by
    intro q; simpa [NewCtx, Context.Value] using hbase q
  have hsome := registerAll_isSome W rank hrank fuel listed hfuel
    (NewApp [WithCtx base, WithPlugins listed]) (NewCtx base)
  obtain ⟨⟨a1, ctx1, err1⟩, hall⟩ := Option.isSome_iff_exists.1 hsome
  obtain ⟨r, new, fail, hr, hs, hc, hb, ht⟩ := Run_of_registered W sched fuel
    (NewApp [WithCtx base, WithPlugins listed]) a1 ctx1 err1
    (by simpa [NewApp, WithCtx, WithPlugins] using hall)
  have hs0 : Step W (NewCtx base) (NewApp [WithCtx base, WithPlugins listed]) a1 ctx1
      new fail := hs
  have hf : fail = none := by
    rcases fail with _ | ⟨q, e⟩
    · rfl
    · have := hs0.failed q e rfl
      rw [hreg] at this
      simp at this
  subst hf
  have hplugins : r.1.plugins = new := by
    rw [ht.registration.1, hs0.plugins]; simp [NewApp]
  have hnodup : (new.map W.Key).Nodup := by
    simpa [regPlugins_none] using hs0.nodup rank hrank
  have hearlier : ∀ (i : Nat) (q : P), new[i]? = some q → ∀ d ∈ W.Depends q,
      ∃ (j : Nat) (d1 : P), j < i ∧ new[j]? = some d1 ∧ W.Key d1 = W.Key d := by
    intro i q hq d hd
    rcases hs0.deps.earlier new _ i q hq d hd with hb1 | h1
    · rw [hctx0] at hb1; simp at hb1
    · exact h1
  have hreach : ∀ q, Reachable W listed q → W.Key q ∈ new.map W.Key := by
    intro q hq
    induction hq with
    | listed hmem =>
      have h1 := hb rfl _ (by simpa [NewApp, WithCtx, WithPlugins] using hmem)
      rw [hs0.ctx_eq, Value_bindAll_isSome, hctx0] at h1
      simpa using h1
    | @depends p1 d1 _ hd ih =>
      obtain ⟨p2, hp2, hk⟩ := List.mem_map.1 ih
      have hp : p1 ∈ new := hinj hk ▸ hp2
      obtain ⟨i, hi⟩ := List.getElem?_of_mem hp
      obtain ⟨j, d2, -, hj, hk2⟩ := hearlier i p1 hi d1 hd
      rw [← hk2]
      exact List.mem_map_of_mem _ (List.getElem?_mem hj)
  refine ⟨r, hr, by rwa [hplugins], ?_, by rwa [hplugins], ?_⟩
  · intro q hq
    rw [hplugins]
    exact List.count_eq_one_of_mem hnodup (hreach q hq)
  · intro A B hl hA hB
    subst hl
    have hlt : rank (W.Key B) < rank (W.Key A) := hrank A B (by simp [hA])
    have hA1 := hfuel A (List.mem_singleton_self _)
    obtain ⟨n, rfl⟩ : ∃ n, fuel = n + 2 := ⟨fuel - 2, by omega⟩
    obtain ⟨a2, ctx2, h2, hp2⟩ := registerAll_chain W n
      (NewApp [WithCtx base, WithPlugins [A]]) (NewCtx base) A B hA hB hreg hctx0
    rw [h2] at hall
    simp only [Option.some.injEq, Prod.mk.injEq] at hall
    rw [ht.registration.1, ← hall.1, hp2]
    simp [NewApp]

/-! ## One `Register` per key (C7) -/

/-- The registration loop on `[A, B]` where `A` and `B` both depend on the leaf `C`. -/
theorem registerAll_shared {P K E : Type} [DecidableEq K] (W : Plugin P K E) (n : Nat)
    (a : App P K E) (ctx : Context K P) (A B C : P)
    (hA : W.Depends A = [C]) (hB : W.Depends B = [C]) (hC : W.Depends C = [])
    (hAB : W.Key A ≠ W.Key B) (hAC : W.Key A ≠ W.Key C) (hBC : W.Key B ≠ W.Key C)
    (hregA : ∀ c, W.Register A c = none) (hregB : ∀ c, W.Register B c = none)
    (hregC : ∀ c, W.Register C c = none)
    (hctxA : ctx.Value (W.Key A) = none) (hctxB : ctx.Value (W.Key B) = none)
    (hctxC : ctx.Value (W.Key C) = none) :
    ∃ a1 ctx1, registerAll W (n + 2) a ctx [A, B] = some (a1, ctx1, none) ∧
      a1.plugins = a.plugins ++ [C, A, B] ∧
      a1.calls = a.calls ++ [.Register C none, .Register A none, .Register B none] := by
  simp [registerAll, registerPlugin, registerDepends, hA, hB, hC, hregA, hregB, hregC,
    hctxA, hctxB, hctxC, Context.Value, hAB, hAC, hBC, Ne.symm hAB, Ne.symm hAC, Ne.symm hBC]

/-- C7: for declarations that are acyclic on identity keys, `Run` on a fresh App returns for
every fuel above the ranks of the listed plugins and its `Register` calls are on pairwise
different keys, whatever the base context binds and whatever the calls return; for `A` and
`B` both depending on the leaf `C`, with all three `Register` succeeding, registering
`[A, B]` makes the `Register` calls `C, A, B`, one on `C`, and yields the order
`[C, A, B]`. -/
theorem register_once_per_key {P K E : Type} [DecidableEq K] (W : Plugin P K E)
    (rank : K → Nat) (hrank : Ranked W rank) (base : Context K P)
    (sched : List (Task P) → List (Task P)) (listed : List P) (fuel : Nat)
    (hfuel : ∀ q ∈ listed, rank (W.Key q) < fuel) :
    ∃ r, Run W sched fuel (NewApp [WithCtx base, WithPlugins listed]) = some r ∧
      ((r.1.calls.filterMap Call.registered).map W.Key).Nodup ∧
      (∀ A B C, listed = [A, B] → W.Depends A = [C] → W.Depends B = [C] →
        W.Depends C = [] → W.Key A ≠ W.Key B → W.Key A ≠ W.Key C → W.Key B ≠ W.Key C →
        (∀ q ∈ [A, B, C], base.Value (W.Key q) = none ∧ ∀ c, W.Register q c = none) →
        r.1.calls.filterMap Call.registered = [C, A, B] ∧ r.1.plugins = [C, A, B]) := by
  have hsome := registerAll_isSome W rank hrank fuel listed hfuel
    (NewApp [WithCtx base, WithPlugins listed]) (NewCtx base)
  obtain ⟨⟨a1, ctx1, err1⟩, hall⟩ := Option.isSome_iff_exists.1 hsome
  obtain ⟨r, new, fail, hr, hs, hc, hb, ht⟩ := Run_of_registered W sched fuel
    (NewApp [WithCtx base, WithPlugins listed]) a1 ctx1 err1
    (by simpa [NewApp, WithCtx, WithPlugins] using hall)
  have hcalls : a1.calls = regCalls new fail := by simpa [NewApp] using hs.calls
  refine ⟨r, hr, ?_, ?_⟩
  · rw [ht.registration.2, hcalls, regCalls_registered]
    exact hs.nodup rank hrank
  · intro A B C hl hA hB hC hAB hAC hBC hq
    subst hl
    have hlt : rank (W.Key C) < rank (W.Key A) := hrank A C (by simp [hA])
    have hA1 := hfuel A (List.mem_cons_self _ _)
    obtain ⟨n, rfl⟩ : ∃ n, fuel = n + 2 := ⟨fuel - 2, by omega⟩
    have hctx : ∀ q ∈ [A, B, C], (NewCtx base).Value (W.Key q) = none := by
      intro q hmem; simpa [NewCtx, Context.Value] using (hq q hmem).1
    obtain ⟨a2, ctx2, h2, hp2, hc2⟩ := registerAll_shared W n
      (NewApp [WithCtx base, WithPlugins [A, B]]) (NewCtx base) A B C hA hB hC hAB hAC hBC
      (hq A (by simp)).2 (hq B (by simp)).2 (hq C (by simp)).2
      (hctx A (by simp)) (hctx B (by simp)) (hctx C (by simp))
    rw [h2] at hall
    simp only [Option.some.injEq, Prod.mk.injEq] at hall
    rw [ht.registration.1, ht.registration.2, ← hall.1, hp2, hc2]
    simp [NewApp, Call.registered]

/-! ## Cyclic declarations (C4) -/

theorem registerPlugin_self_cycle {P K E : Type} [DecidableEq K] (W : Plugin P K E)
    (A : P) (rest : List P) (hA : W.Depends A = A :: rest) (a : App P K E)
    (ctx : Context K P) (hctx : ctx.Value (W.Key A) = none) :
    ∀ fuel, registerPlugin W fuel a ctx A = none := by
  intro fuel
  induction fuel with
  | zero => rfl
  | succ n ih => simp [registerPlugin, registerDepends, hA, hctx, ih]

theorem registerPlugin_two_cycle {P K E : Type} [DecidableEq K] (W : Plugin P K E)
    (A B : P) (restA restB : List P) (hA : W.Depends A = B :: restA)
    (hB : W.Depends B = A :: restB) (a : App P K E) (ctx : Context K P)
    (hcA : ctx.Value (W.Key A) = none) (hcB : ctx.Value (W.Key B) = none) :
    ∀ fuel, registerPlugin W fuel a ctx A = none ∧ registerPlugin W fuel a ctx B = none := by
  intro fuel
  induction fuel with
  | zero => exact ⟨rfl, rfl⟩
  | succ n ih =>
    constructor
    · simp [registerPlugin, registerDepends, hA, hcA, ih.2]
    · simp [registerPlugin, registerDepends, hB, hcB, ih.1]

/-- A cycle through first dependencies, of any length: when every plugin of `cycle` has an
unbound key and its first declared dependency is again in `cycle`, `registerPlugin` returns
on none of them. -/
theorem registerPlugin_first_cycle {P K E : Type} [DecidableEq K] (W : Plugin P K E)
    (cycle : List P) (a : App P K E) (ctx : Context K P)
    (h : ∀ q ∈ cycle, ctx.Value (W.Key q) = none ∧
      ∃ d ∈ cycle, ∃ rest, W.Depends q = d :: rest) :
    ∀ fuel, ∀ q ∈ cycle, registerPlugin W fuel a ctx q = none := by
  intro fuel
  induction fuel with
  | zero => intro q _; rfl
  | succ n ih =>
    intro q hq
    obtain ⟨hv, d, hd, rest, hdep⟩ := h q hq
    simp [registerPlugin, registerDepends, hdep, hv, ih d hd]

theorem registerDepends_key_cycle {P K E : Type} [DecidableEq K] (W : Plugin P K E)
    (keys : List K) (rec : App P K E → Context K P → P → Option (RegResult P K E))
    (hrec : ∀ a ctx d r, (∀ k ∈ keys, ctx.Value k = none) → rec a ctx d = some r →
      r.2.2.1 = false ∧ (∀ k ∈ keys, r.2.1.Value k = none) ∧
        (r.2.2.2 = none → W.Key d ∉ keys)) :
    ∀ (deps : List P) (a : App P K E) (ctx : Context K P) (r : RegResult P K E),
      (∀ k ∈ keys, ctx.Value k = none) →
      registerDepends rec a ctx false deps = some r →
      r.2.2.1 = false ∧ (∀ k ∈ keys, r.2.1.Value k = none) ∧
        (r.2.2.2 = none → ∀ d ∈ deps, W.Key d ∉ keys) := by
  intro deps
  induction deps with
  | nil =>
    intro a ctx r hctx h
    simp only [registerDepends, Option.some.injEq] at h
    subst h
    exact ⟨rfl, hctx, by simp⟩
  | cons d rest ih =>
    intro a ctx r hctx h
    simp only [registerDepends] at h
    cases hc : rec a ctx d with
    | none => simp [hc] at h
    | some r1 =>
      obtain ⟨a1, ctx1, ok1, err1⟩ := r1
      obtain ⟨hok, hctx1, hd⟩ := hrec a ctx d _ hctx hc
      simp only at hok hctx1 hd
      subst hok
      simp only [hc, Bool.false_eq_true, if_false] at h
      cases err1 with
      | some e1 =>
        simp only [Option.some.injEq] at h
        subst h
        exact ⟨rfl, hctx1, by simp⟩
      | none =>
        obtain ⟨h1, h2, h3⟩ := ih a1 ctx1 r hctx1 h
        refine ⟨h1, h2, fun herr d1 hd1 => ?_⟩
        rcases List.mem_cons.1 hd1 with rfl | hd1
        · exact hd rfl
        · exact h3 herr d1 hd1

/-- A cycle through any dependencies, on identity keys: when the keys of `keys` are unbound
and every plugin with a key in `keys` declares a dependency with a key in `keys`, a call of
`registerPlugin` that returns leaves those keys unbound, and it returns a nil error only on
a plugin whose key is not in `keys`. -/
theorem registerPlugin_key_cycle {P K E : Type} [DecidableEq K] (W : Plugin P K E)
    (keys : List K) (hcyc : ∀ q, W.Key q ∈ keys → ∃ d ∈ W.Depends q, W.Key d ∈ keys) :
    ∀ (fuel : Nat) (a : App P K E) (ctx : Context K P) (q : P) (r : RegResult P K E),
      (∀ k ∈ keys, ctx.Value k = none) → registerPlugin W fuel a ctx q = some r →
      r.2.2.1 = false ∧ (∀ k ∈ keys, r.2.1.Value k = none) ∧
        (r.2.2.2 = none → W.Key q ∉ keys) := by
  intro fuel
  induction fuel with
  | zero => intro a ctx q r _ h; simp [registerPlugin] at h
  | succ n ih =>
    intro a ctx q r hctx h
    simp only [registerPlugin] at h
    split at h
    · rename_i hb
      simp only [Option.some.injEq] at h
      subst h
      refine ⟨rfl, hctx, fun _ hk => ?_⟩
      rw [hctx _ hk] at hb
      simp at hb
    · cases hd : registerDepends (registerPlugin W n) a ctx false (W.Depends q) with
      | none => simp [hd] at h
      | some r1 =>
        obtain ⟨a1, ctx1, ok1, err1⟩ := r1
        obtain ⟨hok, hctx1, hdeps⟩ :=
          registerDepends_key_cycle W keys (registerPlugin W n) ih (W.Depends q) a ctx _ hctx hd
        simp only at hok hctx1 hdeps
        subst hok
        simp only [hd] at h
        cases err1 with
        | some e1 =>
          simp only [Option.some.injEq] at h
          subst h
          exact ⟨rfl, hctx1, by simp⟩
        | none =>
          have hq : W.Key q ∉ keys := by
            intro hmem
            obtain ⟨d, hdm, hdk⟩ := hcyc q hmem
            exact hdeps rfl d hdm hdk
          simp only at h
          cases hreg : W.Register q ctx1 with
          | some e =>
            simp only [hreg, Option.some.injEq] at h
            subst h
            exact ⟨rfl, hctx1, by simp⟩
          | none =>
            simp only [hreg, Option.some.injEq] at h
            subst h
            refine ⟨rfl, fun k hk => ?_, fun _ => hq⟩
            have hne : k ≠ W.Key q := fun heq => hq (heq ▸ hk)
            simpa [Context.Value, hne] using hctx1 k hk

/-- C4, amended: `registerPlugin` has no cycle guard.  On declarations that are acyclic it
returns for every fuel above the rank of the plugin.  On a cycle through first dependencies,
of any length, with unbound keys (a list of plugins each of whose first declared dependency
is again in the list) it returns for no fuel on any plugin of the cycle.  On a cycle through
dependencies at any position (a list of unbound keys such that every plugin with a key in it
declares a dependency with a key in it) it never returns a nil error on a plugin with a key
of the cycle, and returns for no fuel when every `Register` succeeds.  Any error it does
return is an error that some `Register` returned in the context it returns: there is no
cycle error. -/
theorem registerPlugin_returns_iff_no_cycle {P K E : Type} [DecidableEq K]
    (W : Plugin P K E) :
    (∀ rank, Ranked W rank → ∀ (fuel : Nat) (a : App P K E) (ctx : Context K P) (p : P),
      rank (W.Key p) < fuel → (registerPlugin W fuel a ctx p).isSome) ∧
    (∀ (cycle : List P) (a : App P K E) (ctx : Context K P),
      (∀ q ∈ cycle, ctx.Value (W.Key q) = none ∧
        ∃ d ∈ cycle, ∃ rest, W.Depends q = d :: rest) →
      ∀ fuel, ∀ q ∈ cycle, registerPlugin W fuel a ctx q = none) ∧
    (∀ (keys : List K) (a : App P K E) (ctx : Context K P),
      (∀ k ∈ keys, ctx.Value k = none) →
      (∀ q, W.Key q ∈ keys → ∃ d ∈ W.Depends q, W.Key d ∈ keys) →
      ∀ fuel q, W.Key q ∈ keys →
        (∀ r, registerPlugin W fuel a ctx q = some r → r.2.2.2 ≠ none) ∧
        ((∀ q1 c, W.Register q1 c = none) → registerPlugin W fuel a ctx q = none)) ∧
    (∀ (fuel : Nat) (a : App P K E) (ctx : Context K P) (p : P) (r : RegResult P K E)
      (err : Error P E), registerPlugin W fuel a ctx p = some r → r.2.2.2 = some err →
      ∃ q, W.Register q r.2.1 = some err.cause) := by
  have hcause : ∀ (fuel : Nat) (a : App P K E) (ctx : Context K P) (p : P)
      (r : RegResult P K E) (err : Error P E), registerPlugin W fuel a ctx p = some r →
      r.2.2.2 = some err → ∃ q, W.Register q r.2.1 = some err.cause := by
    intro fuel a ctx p r err h herr
    obtain ⟨-, new, fail, hs, hc, -, -⟩ := registerPlugin_post W fuel a ctx p r h
    rw [herr] at hc
    rcases fail with _ | ⟨q, e⟩
    · simp at hc
    · simp only [Option.map_some', Option.some.injEq] at hc
      exact ⟨q, hc ▸ hs.failed q e rfl⟩
  have hnever : ∀ (keys : List K) (a : App P K E) (ctx : Context K P),
      (∀ k ∈ keys, ctx.Value k = none) →
      (∀ q, W.Key q ∈ keys → ∃ d ∈ W.Depends q, W.Key d ∈ keys) →
      ∀ fuel q, W.Key q ∈ keys →
        ∀ r, registerPlugin W fuel a ctx q = some r → r.2.2.2 ≠ none := by
    intro keys a ctx hctx hcyc fuel q hq r h herr
    exact (registerPlugin_key_cycle W keys hcyc fuel a ctx q r hctx h).2.2 herr hq
  refine ⟨fun rank hrank => registerPlugin_isSome W rank hrank,
    fun cycle a ctx h => registerPlugin_first_cycle W cycle a ctx h, ?_, hcause⟩
  intro keys a ctx hctx hcyc fuel q hq
  refine ⟨hnever keys a ctx hctx hcyc fuel q hq, fun hreg => ?_⟩
  cases h : registerPlugin W fuel a ctx q with
  | none => rfl
  | some r =>
    cases herr : r.2.2.2 with
    | none => exact absurd herr (hnever keys a ctx hctx hcyc fuel q hq r h)
    | some err =>
      obtain ⟨q1, h1⟩ := hcause fuel a ctx q r err h herr
      rw [hreg] at h1
      simp at h1

theorem chain_ranked : Ranked chain chainRank := by
  intro p d hd
  by_cases hp : p = 0
  · subst hp
    simp only [chain, quiet, if_true, List.mem_singleton] at hd
    subst hd
    decide
  · simp [chain, quiet, hp] at hd

theorem shared_ranked : Ranked shared sharedRank := by
  intro p d hd
  by_cases hp : p = 0 ∨ p = 1
  · simp only [shared, quiet, hp, if_true, List.mem_singleton] at hd
    subst hd
    rcases hp with rfl | rfl <;> decide
  · simp [shared, quiet, hp] at hd

theorem startsFirst_perm {P : Type} (l : List (Task P)) : (startsFirst l).Perm l :=
  List.filter_append_perm _ l

/-! ## Example declarations and instances -/

/-- C1, as stated, fails: with `Start` of plugin 0 returning an error and no signal sent,
`Run` registers `[0, 1]` and calls `Deregister` on neither plugin. -/
theorem deregister_skipped_after_start_error :
    ∃ r, Run startFails startsFirst 1 (NewApp [WithPlugins [0, 1]]) = some r ∧
      r.1.plugins = [0, 1] ∧ r.1.calls.filterMap Call.deregistered = [] ∧
      r.1.calls.filterMap Call.deregistered ≠ r.1.plugins.reverse :=
  ⟨_, rfl, by decide, by decide, by decide⟩

/-- C1, instance: two plugins without dependencies and without errors are deregistered in
the order `[1, 0]`. -/
theorem deregister_reverse_unless_service_error_witness :
    ∃ r, Run leaves startsFirst 1 (NewApp [WithPlugins [0, 1]]) = some r ∧
      r.1.calls.filterMap Call.deregistered = [1, 0] := by
  obtain ⟨r, hr, h1, -⟩ := deregister_reverse_unless_service_error leaves startsFirst 1
    (NewApp [WithPlugins [0, 1]]) rfl (by decide)
  have hr0 : Run leaves startsFirst 1 (NewApp [WithPlugins [0, 1]]) = some r := hr
  have h2 : (Run leaves startsFirst 1 (NewApp [WithPlugins [0, 1]])).map
      (fun r => (r.1.calls.filterMap Call.serviceError, r.1.plugins)) = some ([], [0, 1]) := by
    decide
  rw [hr0] at h2
  simp only [Option.map_some', Option.some.injEq, Prod.mk.injEq] at h2
  exact ⟨r, hr, by rw [h1 h2.1, h2.2]; rfl⟩

/-- C3, as stated, fails: with `Start` of plugin 0 returning the error 7 and `Stop` of
plugin 1 the error 8, the error `Run` returns does not hold the error 8. -/
theorem run_error_drops_later_service_error :
    ∃ r, Run startAndStopFail startsFirst 1 (NewApp [WithPlugins [0, 1]]) = some r ∧
      Call.Stop 1 (some 8) ∈ r.1.calls ∧ ∀ err ∈ errorsOf r.2, err.cause ≠ 8 :=
  ⟨_, rfl, by decide, by decide⟩

/-- C3, instance: the run in which `Start` of plugin 0 and `Stop` of plugin 1 fail. -/
theorem run_error_first_service_or_deregister_witness :
    ∃ r, Run startAndStopFail startsFirst 1 (NewApp [WithPlugins [0, 1]]) = some r ∧
      (r.2 = none ↔ ∀ c ∈ r.1.calls, c.result = none) := by
  obtain ⟨r, hr, -, -, h3⟩ := run_error_first_service_or_deregister startAndStopFail
    startsFirst 1 (NewApp [WithPlugins [0, 1]]) rfl (by decide)
  exact ⟨r, hr, h3⟩

/-- C2, instance: registering `[0]`, where plugin 0 depends on plugin 1, yields `[1, 0]`. -/
theorem registration_order_topological_witness :
    ∃ r, Run chain startsFirst 2 (NewApp [WithCtx background, WithPlugins [0]]) = some r ∧
      r.1.plugins = [1, 0] := by
  obtain ⟨r, hr, -, -, -, h4⟩ := registration_order_topological chain chainRank chain_ranked
    (fun _ _ h => h) (fun _ _ => rfl) background (fun _ => rfl) startsFirst [0] 2 (by decide)
  exact ⟨r, hr, h4 0 1 rfl rfl rfl⟩

/-- C4, as stated, fails: on the declaration `A.Depends() = [A]`, and on
`A.Depends() = [B]` with `B.Depends() = [A]`, `registerPlugin` returns for no fuel. -/
theorem registerPlugin_cycle_never_returns :
    (¬ ∃ fuel, (registerPlugin selfLoop fuel (NewApp []) background 0).isSome) ∧
      ¬ ∃ fuel, (registerPlugin twoCycle fuel (NewApp []) background 0).isSome := by
  constructor
  · rintro ⟨fuel, h⟩
    rw [registerPlugin_self_cycle selfLoop 0 [] rfl (NewApp []) background rfl fuel] at h
    simp at h
  · rintro ⟨fuel, h⟩
    rw [(registerPlugin_two_cycle twoCycle 0 1 [] [] rfl rfl (NewApp []) background rfl rfl
      fuel).1] at h
    simp at h

/-- C4, instance: `chain` returns with fuel 2; the cycles of length one, two and three
through first dependencies return for no fuel, here fuel 5; so does the cycle of `lateCycle`
through a second dependency. -/
theorem registerPlugin_returns_iff_no_cycle_witness :
    (registerPlugin chain 2 (NewApp []) background 0).isSome ∧
      registerPlugin selfLoop 5 (NewApp []) background 0 = none ∧
      registerPlugin twoCycle 5 (NewApp []) background 0 = none ∧
      registerPlugin threeCycle 5 (NewApp []) background 0 = none ∧
      registerPlugin lateCycle 5 (NewApp []) background 0 = none :=
  ⟨(registerPlugin_returns_iff_no_cycle chain).1 chainRank chain_ranked 2 (NewApp [])
      background 0 (by decide),
    (registerPlugin_returns_iff_no_cycle selfLoop).2.1 [0] (NewApp []) background
      (by simp [selfLoop, quiet, background, Context.Value]) 5 0 (by simp),
    (registerPlugin_returns_iff_no_cycle twoCycle).2.1 [0, 1] (NewApp []) background
      (by simp [twoCycle, quiet, background, Context.Value]) 5 0 (by simp),
    (registerPlugin_returns_iff_no_cycle threeCycle).2.1 [0, 1, 2] (NewApp []) background
      (by simp [threeCycle, quiet, background, Context.Value]) 5 0 (by simp),
    ((registerPlugin_returns_iff_no_cycle lateCycle).2.2.1 [0] (NewApp []) background
      (by simp [background, Context.Value])
      (by
        intro q hq
        have h0 : q = 0 := by simpa [lateCycle, quiet] using hq
        subst h0
        exact ⟨0, by simp [lateCycle, quiet], by simp [lateCycle, quiet]⟩)
      5 0 (by simp [lateCycle, quiet])).2 (fun _ _ => rfl)⟩

/-- C5, instance: `Register` of the dependency 1 of the listed plugin 0 fails with 9. -/
theorem register_failure_aborts_witness :
    ∃ r, Run registerFails startsFirst 2 (NewApp [WithPlugins [0]]) = some r ∧
      r.1.calls = [.Register 1 (some 9)] ∧
      ∃ l path, DependsPath registerFails l path 1 ∧
        r.2 = some (.single (.wrap (wrapDepends path.length (.plugin 9)) (.pluginFailed l))) ∧
        1 ∉ r.1.plugins := by
  obtain ⟨r, hr, h⟩ := register_failure_aborts registerFails startsFirst 2
    (NewApp [WithPlugins [0]]) rfl rfl (fun _ _ h => h)
    (Or.inl ⟨chainRank, chain_ranked, by decide⟩)
  have hr0 : Run registerFails startsFirst 2 (NewApp [WithPlugins [0]]) = some r := hr
  have hc : (Run registerFails startsFirst 2 (NewApp [WithPlugins [0]])).map
      (fun r => r.1.calls) = some [.Register 1 (some 9)] := by decide
  rw [hr0] at hc
  simp only [Option.map_some', Option.some.injEq] at hc
  obtain ⟨new, l, path, ctx1, -, hpath, herr, -, -, -, hnot, -⟩ :=
    h 1 9 (by rw [hc]; simp)
  exact ⟨r, hr, hc, l, path, hpath, herr, hnot⟩

/-- C6, code: `registerPlugin` on a new plugin without dependencies, whose `Register`
succeeds, appends it to the order and returns `false` with a nil error, and `Run` logs
the line of a skipped plugin for it. -/
theorem registerPlugin_new_plugin_returns_false :
    (registerPlugin leaves 1 (NewApp []) background 0).map
        (fun r => (r.1.plugins, r.1.calls, r.2.2.1, r.2.2.2)) =
      some ([0], [.Register 0 none], false, none) ∧
    (Run leaves startsFirst 1 (NewApp [WithPlugins [0]])).map
        (fun r => (r.1.plugins, r.1.logged)) =
      some ([0], [.skipped 0]) := by
  constructor <;> decide

/-- C7, instance: registering `[0, 1]`, both depending on plugin 2, calls `Register` on
`2, 0, 1` and yields the order `[2, 0, 1]`. -/
theorem register_once_per_key_witness :
    ∃ r, Run shared startsFirst 2 (NewApp [WithCtx background, WithPlugins [0, 1]]) = some r ∧
      r.1.calls.filterMap Call.registered = [2, 0, 1] ∧ r.1.plugins = [2, 0, 1] := by
  obtain ⟨r, hr, -, h2⟩ := register_once_per_key shared sharedRank shared_ranked background
    startsFirst [0, 1] 2 (by decide)
  exact ⟨r, hr, h2 0 1 2 rfl rfl rfl rfl (by decide) (by decide) (by decide)
    (fun _ _ => ⟨rfl, fun _ => rfl⟩)⟩

/-- C8, code: a second `Run` of the same App starts from the registration order the first
run left, registers the plugin again and appends it again, so that the order is `[0, 0]`
and the plugin gets two `Start`, two `Stop` and two `Deregister` calls in the second run. -/
theorem second_run_doubles_order :
    ∃ r1 r2, Run leaves startsFirst 1 (NewApp [WithPlugins [0]]) = some r1 ∧
      Run leaves startsFirst 1 r1.1 = some r2 ∧
      r1.1.plugins = [0] ∧ r2.1.plugins = [0, 0] ∧
      r2.1.calls.drop r1.1.calls.length =
        [.Register 0 none, .Start 0 none, .Start 0 none, .Stop 0 none, .Stop 0 none,
          .Deregister 0 none, .Deregister 0 none] :=
  ⟨_, _, rfl, rfl, by decide, by decide, by decide⟩

/-- C10, instance: the base context binds the key of the listed plugin 0. -/
theorem bound_key_skips_plugin_witness :
    (boundBase.Value (chain.Key 0)).isSome ∧
      ∃ r, Run chain startsFirst 2 (NewApp [WithCtx boundBase, WithPlugins [0]]) = some r ∧
        0 ∉ r.1.plugins ∧ ∀ c ∈ r.1.calls, c.plugin ≠ 0 :=
  ⟨rfl, _, rfl, (bound_key_skips_plugin chain boundBase 0 rfl).2 startsFirst
    startsFirst_perm 2 [0] _ rfl⟩

end Engine
